import Mathlib

/-!
Verification of the `xtea4` package: a shallow embedding of the XTEA block
cipher (`_encrypt` / `_decrypt`) and of the `XTEACipher` mode-of-operation
engine (ECB, CBC, CFB, OFB, CTR) from `xtea4/__init__.py`, together with
theorems settling the specification claims.

Bytes are modelled as `List Nat` with each element `< 256`; Python's
unbounded integers with a final `& 0xffffffff` are modelled as `Nat`
arithmetic with the same masking (for subtraction, which can go negative in
Python, the two's-complement wraparound `(a - b) & 0xffffffff` is modelled
by `sub32`, i.e. mathematical `(a - b) mod 2^32` on naturals).
-/

namespace Xtea

/-- Endianness choice passed to Python's `struct` ("!" / ">" are big-endian,
"<" is little-endian); the engine stores it at construction. -/
inductive Endian
  | big
  | little
deriving DecidableEq, Repr

/-- `mask = 0xffffffff` from `_encrypt` / `_decrypt`. -/
def mask : Nat := 0xffffffff

/-- `delta = 0x9e3779b9` from `_encrypt` / `_decrypt`. -/
def delta : Nat := 0x9e3779b9

/-- `2^32`, the modulus of all the cipher's word arithmetic. -/
def M32 : Nat := 0x100000000

/-- Assemble one 32-bit word from four bytes, as `struct.unpack(e + "2L", ...)`
does for the given byte order. -/
def bytes2word : Endian → Nat → Nat → Nat → Nat → Nat
  | Endian.big, b0, b1, b2, b3 => ((b0 * 256 + b1) * 256 + b2) * 256 + b3
  | Endian.little, b0, b1, b2, b3 => ((b3 * 256 + b2) * 256 + b1) * 256 + b0

/-- Serialize one 32-bit word to four bytes, as `struct.pack(e + "L", w)`. -/
def word2bytes : Endian → Nat → List Nat
  | Endian.big, w => [w / 16777216 % 256, w / 65536 % 256, w / 256 % 256, w % 256]
  | Endian.little, w => [w % 256, w / 256 % 256, w / 65536 % 256, w / 16777216 % 256]

/-- `struct.unpack(endian + "2L", block)`: an 8-byte block as two words.
Python raises `struct.error` on any other length; that case is unreachable
for the 8-byte blocks the engine passes, and is mapped to `(0, 0)`. -/
def unpack2 (e : Endian) (block : List Nat) : Nat × Nat :=
  match block with
  | [a0, a1, a2, a3, a4, a5, a6, a7] =>
      (bytes2word e a0 a1 a2 a3, bytes2word e a4 a5 a6 a7)
  | _ => (0, 0)

/-- `struct.pack(endian + "2L", v0, v1)`. -/
def pack2 (e : Endian) (v0 v1 : Nat) : List Nat :=
  word2bytes e v0 ++ word2bytes e v1

/-- `struct.unpack(endian + "4L", key)`: a 16-byte key as four words.
Python raises `struct.error` on any other length (unreachable after the
constructor's key-length check); mapped to `[]`. -/
def unpack4 (e : Endian) (key : List Nat) : List Nat :=
  match key with
  | [a0, a1, a2, a3, a4, a5, a6, a7, a8, a9, a10, a11, a12, a13, a14, a15] =>
      [bytes2word e a0 a1 a2 a3, bytes2word e a4 a5 a6 a7,
       bytes2word e a8 a9 a10 a11, bytes2word e a12 a13 a14 a15]
  | _ => []

/-- The shared mixing sub-expression
`((v << 4 ^ v >> 5) + v) ^ (sum + k[...])` of all four half-round updates. -/
def mix (v s kw : Nat) : Nat :=
  (((v <<< 4) ^^^ (v >>> 5)) + v) ^^^ (s + kw)

/-- Python `(a - b) & 0xffffffff` where `a - b` may be negative: Python's
`&` on a negative int is two's-complement, i.e. the mathematical
`(a - b) mod 2^32`, which this expresses on `Nat`. -/
def sub32 (a b : Nat) : Nat :=
  (a + (M32 - b % M32)) % M32

/-- One iteration of the loop body of `_encrypt`, acting on `(v0, v1, sum)`:
`v0 = (v0 + mix) & mask; sum = (sum + delta) & mask; v1 = (v1 + mix) & mask`. -/
def encRound (k : List Nat) (st : Nat × Nat × Nat) : Nat × Nat × Nat :=
  let v0 := (st.1 + mix st.2.1 st.2.2 (k.getD (st.2.2 &&& 3) 0)) &&& mask
  let s := (st.2.2 + delta) &&& mask
  let v1 := (st.2.1 + mix v0 s (k.getD ((s >>> 11) &&& 3) 0)) &&& mask
  (v0, v1, s)

/-- One iteration of the loop body of `_decrypt`, acting on `(v0, v1, sum)`:
`v1 = (v1 - mix) & mask; sum = (sum - delta) & mask; v0 = (v0 - mix) & mask`. -/
def decRound (k : List Nat) (st : Nat × Nat × Nat) : Nat × Nat × Nat :=
  let v1 := sub32 st.2.1 (mix st.1 st.2.2 (k.getD ((st.2.2 >>> 11) &&& 3) 0))
  let s := sub32 st.2.2 delta
  let v0 := sub32 st.1 (mix v1 s (k.getD (s &&& 3) 0))
  (v0, v1, s)

/-- `for round in range(n)` of `_encrypt`: `n` applications of `encRound`. -/
def encCycles (k : List Nat) : Nat → Nat × Nat × Nat → Nat × Nat × Nat
  | 0, st => st
  | n + 1, st => encCycles k n (encRound k st)

/-- `for round in range(n)` of `_decrypt`: `n` applications of `decRound`. -/
def decCycles (k : List Nat) : Nat → Nat × Nat × Nat → Nat × Nat × Nat
  | 0, st => st
  | n + 1, st => decCycles k n (decRound k st)

/-- `_encrypt(key, block, n=32, endian="!")`: encrypt one 8-byte block. -/
def _encrypt (key block : List Nat) (n : Nat := 32) (e : Endian := Endian.big) :
    List Nat :=
  let v := unpack2 e block
  let k := unpack4 e key
  let r := encCycles k n (v.1, v.2, 0)
  pack2 e r.1 r.2.1

/-- `_decrypt(key, block, n=32, endian="!")`: decrypt one 8-byte block,
starting from `sum = (delta * n) & mask`. -/
def _decrypt (key block : List Nat) (n : Nat := 32) (e : Endian := Endian.big) :
    List Nat :=
  let v := unpack2 e block
  let k := unpack4 e key
  let r := decCycles k n (v.1, v.2, (delta * n) &&& mask)
  pack2 e r.1 r.2.1

/-- `xor_strings(s, t)`: byte-wise xor, truncated to the shorter argument
(Python `zip` semantics). -/
def xor_strings (s t : List Nat) : List Nat :=
  List.zipWith (fun x y => x ^^^ y) s t

/-- `MODE_ECB = 1`. -/
def MODE_ECB : Nat := 1
/-- `MODE_CBC = 2`. -/
def MODE_CBC : Nat := 2
/-- `MODE_CFB = 3`. -/
def MODE_CFB : Nat := 3
/-- `MODE_PGP = 4`. -/
def MODE_PGP : Nat := 4
/-- `MODE_OFB = 5`. -/
def MODE_OFB : Nat := 5
/-- `MODE_CTR = 6`. -/
def MODE_CTR : Nat := 6

/-- The error conditions raised by the package, one constructor per raise
site (the spec's section-7 taxonomy names for them in comments). -/
inductive XTEAError
  /-- `ValueError("Key must be 128 bit long")`: KeyLengthError. -/
  | keyLengthError
  /-- `NotImplementedError("The selected mode of operation does not exist.")`:
  UnsupportedModeError / the NotImplementedError raised for PGP. -/
  | unsupportedModeError
  /-- `ValueError("CBC, CFB and OFB need an IV with a length of 8 bytes!")`:
  IVRequiredError. -/
  | ivRequiredError
  /-- `ValueError("CTR mode needs a callable counter")`: CounterRequiredError. -/
  | counterRequiredError
  /-- `ValueError("Input string must be a multiple of blocksize in length")`
  from `_block`: InvalidInputLengthError. -/
  | invalidInputLengthError
  /-- `ValueError("Unknown mode of operation!")` inside the per-block loop;
  unreachable for engines produced by the validated constructor. -/
  | unknownModeError
deriving DecidableEq, Repr

/-- `_block(self, s)`: check `len(s) % 8 == 0`, then return the slices
`s[i*8:(i+1)*8]` for `i in range(len(s) // 8)`. -/
def _block (s : List Nat) : Except XTEAError (List (List Nat)) :=
  if s.length % 8 ≠ 0 then Except.error XTEAError.invalidInputLengthError
  else Except.ok ((List.range (s.length / 8)).map (fun i => (s.drop (i * 8)).take 8))

/-- The `XTEACipher` object. The two Python generators (`_keygen` for
OFB/CTR) are closed over `self`; their state is modelled explicitly:
`ksBuf` holds keystream bytes already produced but not yet consumed, and
`ctrIdx` counts the calls made so far to the CTR counter callable (the
callable itself, typically stateful in Python, is modelled as a pure
function of its call index). -/
structure XTEACipher where
  key : List Nat
  mode : Nat
  IV : Option (List Nat)
  counter : Option (Nat → List Nat)
  rounds : Nat
  endian : Endian
  ksBuf : List Nat
  ctrIdx : Nat

/-- `XTEACipher.__init__` / `new(key, **kwargs)`: the validated constructor.
Checks run in source order: key length, mode (an absent mode defaults to
`MODE_ECB` with a `warnings.warn`, it does not raise), IV for CBC/CFB/OFB
(`IV is None or len(IV) != 8`, expressed as `(iv?.getD []).length ≠ 8`),
counter for CTR (a non-callable Python value is modelled as `none`). -/
def xteaNew (key : List Nat) (mode? : Option Nat) (iv? : Option (List Nat))
    (ctr? : Option (Nat → List Nat)) (rounds : Nat) (endian : Endian) :
    Except XTEAError XTEACipher :=
  if key.length ≠ 16 then Except.error XTEAError.keyLengthError
  else
    let mode := mode?.getD MODE_ECB
    if mode ≠ MODE_ECB ∧ mode ≠ MODE_CBC ∧ mode ≠ MODE_CFB ∧ mode ≠ MODE_OFB ∧
        mode ≠ MODE_CTR then
      Except.error XTEAError.unsupportedModeError
    else if (mode = MODE_CBC ∨ mode = MODE_CFB ∨ mode = MODE_OFB) ∧
        (iv?.getD []).length ≠ 8 then
      Except.error XTEAError.ivRequiredError
    else if mode = MODE_CTR ∧ ctr?.isNone = true then
      Except.error XTEAError.counterRequiredError
    else
      Except.ok ⟨key, mode, iv?, ctr?, rounds, endian, [], 0⟩

/-- One iteration of the per-block loop of `XTEACipher.encrypt` for the
block-chained modes, acting on the current IV; returns the emitted
ciphertext block and the new IV. The final branch is Python's
`raise ValueError("Unknown mode of operation!")`, unreachable for engines
from `xteaNew` (see `XTEACipher.encrypt`). -/
def encStep (key : List Nat) (cyc : Nat) (e : Endian) (mode : Nat)
    (iv : Option (List Nat)) (block : List Nat) : List Nat × Option (List Nat) :=
  if mode = MODE_ECB then (_encrypt key block cyc e, iv)
  else if mode = MODE_CBC then
    let xored := xor_strings (iv.getD []) block
    let ecd := _encrypt key xored cyc e
    (ecd, some ecd)
  else if mode = MODE_CFB then
    let keystream := _encrypt key (iv.getD []) cyc e
    let ecd := xor_strings keystream block
    (ecd, some ecd)
  else ([], iv)

/-- The per-block loop of `XTEACipher.encrypt`: thread the IV through
`encStep` over the block list, collecting the emitted blocks (the `out`
list, joined by `b"".join` in `XTEACipher.encrypt`). -/
def encSteps (key : List Nat) (cyc : Nat) (e : Endian) (mode : Nat) :
    List (List Nat) → Option (List Nat) → List (List Nat) × Option (List Nat)
  | [], iv => ([], iv)
  | b :: bs, iv =>
    let s := encStep key cyc e mode iv b
    let r := encSteps key cyc e mode bs s.2
    (s.1 :: r.1, r.2)

/-- One iteration of the per-block loop of `XTEACipher.decrypt` for the
block-chained modes. CBC and CFB set the new IV to the ciphertext block
just consumed (`self.IV = block`). -/
def decStep (key : List Nat) (cyc : Nat) (e : Endian) (mode : Nat)
    (iv : Option (List Nat)) (block : List Nat) : List Nat × Option (List Nat) :=
  if mode = MODE_ECB then (_decrypt key block cyc e, iv)
  else if mode = MODE_CBC then
    let decrypted_but_not_xored := _decrypt key block cyc e
    (xor_strings (iv.getD []) decrypted_but_not_xored, some block)
  else if mode = MODE_CFB then
    let keystream := _encrypt key (iv.getD []) cyc e
    (xor_strings keystream block, some block)
  else ([], iv)

/-- The per-block loop of `XTEACipher.decrypt`, collecting the emitted
blocks. -/
def decSteps (key : List Nat) (cyc : Nat) (e : Endian) (mode : Nat) :
    List (List Nat) → Option (List Nat) → List (List Nat) × Option (List Nat)
  | [], iv => ([], iv)
  | b :: bs, iv =>
    let s := decStep key cyc e mode iv b
    let r := decSteps key cyc e mode bs s.2
    (s.1 :: r.1, r.2)

/-- The OFB `keygen` generator: take `n` keystream bytes. State is the
current `self.IV` and the unconsumed bytes `buf` of the block most recently
produced. A refill step is `self.IV = _encrypt(self.key, self.IV, rounds // 2)`
(note: the Python generator does not pass `endian`, so refills always use
the big-endian default) followed by yielding the bytes of the new IV.
Returns (bytes taken, final IV, final unconsumed buffer). The empty-list
refill branch is unreachable: `_encrypt` always returns 8 bytes. -/
def ofbStream (key : List Nat) (cyc : Nat) :
    Nat → List Nat → List Nat → List Nat × List Nat × List Nat
  | 0, iv, buf => ([], iv, buf)
  | n + 1, iv, [] =>
    match _encrypt key iv cyc with
    | [] => ([], iv, [])
    | b :: rest =>
      let r := ofbStream key cyc n (b :: rest) rest
      (b :: r.1, r.2)
  | n + 1, iv, b :: rest =>
    let r := ofbStream key cyc n iv rest
    (b :: r.1, r.2)

/-- The CTR `keygen` generator: take `n` keystream bytes. A refill step is
`self.IV = _encrypt(self.key, self.counter(), rounds // 2)` (again without
`endian`, hence big-endian) followed by yielding the bytes of that block;
`i` is the number of counter calls made so far. Returns
(bytes taken, final counter index, final IV, final unconsumed buffer). -/
def ctrStream (key : List Nat) (cyc : Nat) (ctr : Nat → List Nat) :
    Nat → Nat → Option (List Nat) → List Nat →
      List Nat × Nat × Option (List Nat) × List Nat
  | 0, i, iv, buf => ([], i, iv, buf)
  | n + 1, i, _, [] =>
    match _encrypt key (ctr i) cyc with
    | [] => ([], i + 1, some [], [])
    | b :: rest =>
      let r := ctrStream key cyc ctr n (i + 1) (some (b :: rest)) rest
      (b :: r.1, r.2)
  | n + 1, i, iv, b :: rest =>
    let r := ctrStream key cyc ctr n i iv rest
    (b :: r.1, r.2)

/-- `XTEACipher._stream(data)`: xor the data bytes with the next
`len(data)` keystream bytes (`zip` truncates to the data, so exactly
`len(data)` keystream bytes are consumed), and record the generator's
advanced state back into the engine. -/
def _stream (c : XTEACipher) (data : List Nat) : List Nat × XTEACipher :=
  if c.mode = MODE_OFB then
    let r := ofbStream c.key (c.rounds / 2) data.length (c.IV.getD []) c.ksBuf
    (List.zipWith (fun x y => x ^^^ y) data r.1,
     { c with IV := some r.2.1, ksBuf := r.2.2 })
  else
    let r := ctrStream c.key (c.rounds / 2) (c.counter.getD (fun _ => []))
      data.length c.ctrIdx c.IV c.ksBuf
    (List.zipWith (fun x y => x ^^^ y) data r.1,
     { c with ctrIdx := r.2.1, IV := r.2.2.1, ksBuf := r.2.2.2 })

/-- `XTEACipher.encrypt(data)`: stream modes go through `_stream` with no
length restriction; block-chained modes split via `_block` (which raises on
misaligned input before any block is processed) and fold `encStep` with
`args = (rounds // 2, endian)`. Python raises "Unknown mode of operation!"
inside the loop; engines from `xteaNew` always carry a recognized mode, for
which the hoisted placement here agrees with the source. -/
def XTEACipher.encrypt (c : XTEACipher) (data : List Nat) :
    Except XTEAError (List Nat × XTEACipher) :=
  if c.mode = MODE_OFB ∨ c.mode = MODE_CTR then Except.ok (_stream c data)
  else
    match _block data with
    | Except.error err => Except.error err
    | Except.ok blocks =>
      if c.mode = MODE_ECB ∨ c.mode = MODE_CBC ∨ c.mode = MODE_CFB then
        let r := encSteps c.key (c.rounds / 2) c.endian c.mode blocks c.IV
        Except.ok (r.1.flatten, { c with IV := r.2 })
      else Except.error XTEAError.unknownModeError

/-- `XTEACipher.decrypt(data)`: same dispatch as `encrypt`, with `decStep`
in the per-block loop (stream modes literally share `_stream`). -/
def XTEACipher.decrypt (c : XTEACipher) (data : List Nat) :
    Except XTEAError (List Nat × XTEACipher) :=
  if c.mode = MODE_OFB ∨ c.mode = MODE_CTR then Except.ok (_stream c data)
  else
    match _block data with
    | Except.error err => Except.error err
    | Except.ok blocks =>
      if c.mode = MODE_ECB ∨ c.mode = MODE_CBC ∨ c.mode = MODE_CFB then
        let r := decSteps c.key (c.rounds / 2) c.endian c.mode blocks c.IV
        Except.ok (r.1.flatten, { c with IV := r.2 })
      else Except.error XTEAError.unknownModeError

/-- Helper used only to state closed facts about constructor outcomes: the
mode of a successfully constructed engine, `none` on error. -/
def ctorMode (r : Except XTEAError XTEACipher) : Option Nat :=
  match r with
  | Except.ok c => some c.mode
  | Except.error _ => none

/-- Helper for recursive block splitting, equal to the slice list produced
by `_block` on aligned input (`blockSlices_eq_chunks8` below). -/
def chunks8 (l : List Nat) : List (List Nat) :=
  if l = [] then [] else l.take 8 :: chunks8 (l.drop 8)
termination_by l.length
decreasing_by
  rename_i h
  have : l.length ≠ 0 := fun hl => h (List.eq_nil_of_length_eq_zero hl)
  simp [List.length_drop]
  omega

/-- A sample 16-byte key (the key of the first published test vector),
used by witness theorems. -/
def sampleKey : List Nat :=
  [0x27, 0xf9, 0x17, 0xb1, 0xc1, 0xda, 0x89, 0x93,
   0x60, 0xe2, 0xac, 0xaa, 0xa6, 0xeb, 0x92, 0x3d]

/-- A sample 8-byte IV used by witness theorems. -/
def sampleIV : List Nat := [1, 2, 3, 4, 5, 6, 7, 8]

/-- A sample 8-byte message (the first test vector's plaintext). -/
def sampleMsg : List Nat := [0xaf, 0x20, 0xa3, 0x90, 0x54, 0x75, 0x71, 0xaa]

/-- The engine `xteaNew sampleKey (some MODE_ECB) none none 64 big` builds. -/
def sampleECB : XTEACipher :=
  ⟨sampleKey, MODE_ECB, none, none, 64, Endian.big, [], 0⟩

/-- The engine `xteaNew sampleKey (some MODE_CBC) (some sampleIV) none 64 big`
builds. -/
def sampleCBC : XTEACipher :=
  ⟨sampleKey, MODE_CBC, some sampleIV, none, 64, Endian.big, [], 0⟩

/-- The engine `xteaNew sampleKey (some MODE_OFB) (some sampleIV) none 64 big`
builds. -/
def sampleOFB : XTEACipher :=
  ⟨sampleKey, MODE_OFB, some sampleIV, none, 64, Endian.big, [], 0⟩

/-- A sample CTR counter callable, modelled as a pure function of its call
index, returning a fresh 8-byte value per call. -/
def sampleCounter : Nat → List Nat := fun i => [0, 0, 0, 0, 0, 0, 0, i % 256]

/-- The engine
`xteaNew sampleKey (some MODE_CTR) none (some sampleCounter) 64 big` builds. -/
def sampleCTR : XTEACipher :=
  ⟨sampleKey, MODE_CTR, none, some sampleCounter, 64, Endian.big, [], 0⟩

/-- The iterated OFB chaining value: `ivIter key cyc iv j` is the IV after
`j` refill steps. -/
def ivIter (key : List Nat) (cyc : Nat) (iv : List Nat) : Nat → List Nat
  | 0 => iv
  | j + 1 => _encrypt key (ivIter key cyc iv j) cyc

/-- The OFB keystream exactly as the spec's section 4.5 words it: repeatedly
set `IV := RoundEncrypt(key, IV)` and emit the 8 bytes of each new IV; the
first `k` emitted blocks, concatenated. Stated from the spec for the
refinement half of claim C5 and compared against `ofbStream`. -/
def specOFBKeystream (key : List Nat) (cyc : Nat) (iv : List Nat) (k : Nat) :
    List Nat :=
  ((List.range k).map (fun j => ivIter key cyc iv (j + 1))).flatten

/-- The CTR keystream exactly as the spec's section 4.5 words it: each
refill step computes `block := counter()` (the callable modelled as a pure
function of its call index) and emits `RoundEncrypt(key, block)`; starting
from call index `i`, the first `k` emitted blocks, concatenated. Stated
from the spec for the refinement half of claim C5 and compared against
`ctrStream`. -/
def specCTRKeystream (key : List Nat) (cyc : Nat) (ctr : Nat → List Nat)
    (i : Nat) (k : Nat) : List Nat :=
  ((List.range k).map (fun j => _encrypt key (ctr (i + j)) cyc)).flatten

end Xtea

namespace Xtea

theorem and_mask_eq_mod (x : Nat) : x &&& mask = x % M32 := by
  have h : mask = 2 ^ 32 - 1 := by norm_num [mask]
  rw [h, Nat.and_pow_two_sub_one_eq_mod]
  norm_num [M32]

theorem sub32_and_mask_cancel (a b : Nat) : sub32 ((a + b) &&& mask) b = a % M32 := by
  rw [and_mask_eq_mod]
  unfold sub32 M32
  omega

theorem M32_pos : 0 < M32 := by norm_num [M32]

theorem decRound_encRound (k : List Nat) (st : Nat × Nat × Nat)
    (h0 : st.1 < M32) (h1 : st.2.1 < M32) (h2 : st.2.2 < M32) :
    decRound k (encRound k st) = st := by
  obtain ⟨v0, v1, s⟩ := st
  simp only [encRound]
  set v0' := (v0 + mix v1 s (k.getD (s &&& 3) 0)) &&& mask with hv0
  set s' := (s + delta) &&& mask with hs
  set v1' := (v1 + mix v0' s' (k.getD ((s' >>> 11) &&& 3) 0)) &&& mask with hv1
  have ev1 : sub32 v1' (mix v0' s' (k.getD ((s' >>> 11) &&& 3) 0)) = v1 := by
    rw [hv1, sub32_and_mask_cancel, Nat.mod_eq_of_lt h1]
  have es : sub32 s' delta = s := by
    rw [hs, sub32_and_mask_cancel, Nat.mod_eq_of_lt h2]
  have ev0 : sub32 v0' (mix v1 s (k.getD (s &&& 3) 0)) = v0 := by
    rw [hv0, sub32_and_mask_cancel, Nat.mod_eq_of_lt h0]
  simp only [decRound, ev1, es, ev0]

theorem encRound_lt (k : List Nat) (st : Nat × Nat × Nat) :
    (encRound k st).1 < M32 ∧ (encRound k st).2.1 < M32 ∧ (encRound k st).2.2 < M32 := by
  simp only [encRound, and_mask_eq_mod]
  exact ⟨Nat.mod_lt _ M32_pos, Nat.mod_lt _ M32_pos, Nat.mod_lt _ M32_pos⟩

theorem encCycles_lt (k : List Nat) (n : Nat) (st : Nat × Nat × Nat)
    (h0 : st.1 < M32) (h1 : st.2.1 < M32) (h2 : st.2.2 < M32) :
    (encCycles k n st).1 < M32 ∧ (encCycles k n st).2.1 < M32 ∧
      (encCycles k n st).2.2 < M32 := by
  induction n generalizing st with
  | zero => exact ⟨h0, h1, h2⟩
  | succ n ih =>
    have h := encRound_lt k st
    exact ih (encRound k st) h.1 h.2.1 h.2.2

theorem encCycles_succ_last (k : List Nat) (n : Nat) (st : Nat × Nat × Nat) :
    encCycles k (n + 1) st = encRound k (encCycles k n st) := by
  induction n generalizing st with
  | zero => rfl
  | succ n ih =>
    show encCycles k (n + 1) (encRound k st) = _
    rw [ih (encRound k st)]
    rfl

theorem decCycles_encCycles (k : List Nat) (n : Nat) (st : Nat × Nat × Nat)
    (h0 : st.1 < M32) (h1 : st.2.1 < M32) (h2 : st.2.2 < M32) :
    decCycles k n (encCycles k n st) = st := by
  induction n with
  | zero => rfl
  | succ n ih =>
    rw [encCycles_succ_last]
    have hb := encCycles_lt k n st h0 h1 h2
    show decCycles k n (decRound k (encRound k (encCycles k n st))) = st
    rw [decRound_encRound k _ hb.1 hb.2.1 hb.2.2]
    exact ih

theorem encCycles_sum (k : List Nat) (n : Nat) (st : Nat × Nat × Nat)
    (h : st.2.2 < M32) :
    (encCycles k n st).2.2 = (st.2.2 + delta * n) % M32 := by
  induction n generalizing st with
  | zero =>
    show st.2.2 = _
    rw [Nat.mul_zero, Nat.add_zero, Nat.mod_eq_of_lt h]
  | succ n ih =>
    show (encCycles k n (encRound k st)).2.2 = _
    rw [ih (encRound k st) (encRound_lt k st).2.2]
    have hs : (encRound k st).2.2 = (st.2.2 + delta) % M32 := by
      simp only [encRound, and_mask_eq_mod]
    rw [hs]
    unfold delta M32
    have := st.2.2
    omega

end Xtea
namespace Xtea

theorem unpack2_pack2 (e : Endian) (v0 v1 : Nat) (h0 : v0 < M32) (h1 : v1 < M32) :
    unpack2 e (pack2 e v0 v1) = (v0, v1) := by
  have h0' : v0 < 4294967296 := by simpa [M32] using h0
  have h1' : v1 < 4294967296 := by simpa [M32] using h1
  cases e <;> simp [pack2, word2bytes, unpack2, bytes2word] <;> omega

theorem pack2_unpack2 (e : Endian) (b : List Nat) (hlen : b.length = 8)
    (hb : ∀ x ∈ b, x < 256) :
    pack2 e (unpack2 e b).1 (unpack2 e b).2 = b := by
  match b, hlen with
  | [a0, a1, a2, a3, a4, a5, a6, a7], _ =>
    have h0 := hb a0 (by simp)
    have h1 := hb a1 (by simp)
    have h2 := hb a2 (by simp)
    have h3 := hb a3 (by simp)
    have h4 := hb a4 (by simp)
    have h5 := hb a5 (by simp)
    have h6 := hb a6 (by simp)
    have h7 := hb a7 (by simp)
    cases e <;> simp [pack2, word2bytes, unpack2, bytes2word] <;> omega

theorem unpack2_lt (e : Endian) (b : List Nat) (hb : ∀ x ∈ b, x < 256) :
    (unpack2 e b).1 < M32 ∧ (unpack2 e b).2 < M32 := by
  match b with
  | [a0, a1, a2, a3, a4, a5, a6, a7] =>
    have h0 := hb a0 (by simp)
    have h1 := hb a1 (by simp)
    have h2 := hb a2 (by simp)
    have h3 := hb a3 (by simp)
    have h4 := hb a4 (by simp)
    have h5 := hb a5 (by simp)
    have h6 := hb a6 (by simp)
    have h7 := hb a7 (by simp)
    cases e <;> simp [unpack2, bytes2word, M32] <;> omega
  | [] => simp [unpack2, M32]
  | [_] => simp [unpack2, M32]
  | [_, _] => simp [unpack2, M32]
  | [_, _, _] => simp [unpack2, M32]
  | [_, _, _, _] => simp [unpack2, M32]
  | [_, _, _, _, _] => simp [unpack2, M32]
  | [_, _, _, _, _, _] => simp [unpack2, M32]
  | [_, _, _, _, _, _, _] => simp [unpack2, M32]
  | _ :: _ :: _ :: _ :: _ :: _ :: _ :: _ :: _ :: _ => simp [unpack2, M32]

theorem dec_enc_block (key block : List Nat) (n : Nat) (e : Endian)
    (hlen : block.length = 8) (hb : ∀ x ∈ block, x < 256) :
    _decrypt key (_encrypt key block n e) n e = block := by
  unfold _encrypt _decrypt
  have hv := unpack2_lt e block hb
  set v := unpack2 e block with hvdef
  set k := unpack4 e key with hkdef
  have hst : (v.1, v.2, 0).1 < M32 ∧ (v.1, v.2, (0 : Nat)).2.1 < M32 ∧
      (v.1, v.2, (0 : Nat)).2.2 < M32 := ⟨hv.1, hv.2, M32_pos⟩
  set r := encCycles k n (v.1, v.2, 0) with hrdef
  have hr := encCycles_lt k n (v.1, v.2, 0) hst.1 hst.2.1 hst.2.2
  rw [unpack2_pack2 e r.1 r.2.1 hr.1 hr.2.1]
  have hsum : (delta * n) &&& mask = r.2.2 := by
    rw [hrdef, encCycles_sum k n (v.1, v.2, 0) M32_pos, and_mask_eq_mod]
    simp
  rw [hsum]
  have hteta : (r.1, r.2.1, r.2.2) = r := rfl
  show pack2 e (decCycles k n (r.1, r.2.1, r.2.2)).1
      (decCycles k n (r.1, r.2.1, r.2.2)).2.1 = block
  rw [hteta, hrdef, decCycles_encCycles k n (v.1, v.2, 0) hst.1 hst.2.1 hst.2.2]
  show pack2 e (unpack2 e block).1 (unpack2 e block).2 = block
  exact pack2_unpack2 e block hlen hb

/-- C3: for every 16-byte key, 8-byte block `b`, positive cycle count `n`
and endianness `e`, `_decrypt` inverts `_encrypt`:
`_decrypt key (_encrypt key b n e) n e = b`, where `_decrypt` starts from
`sum = (delta * n) mod 2^32` and undoes each cycle's two half-round
updates in reverse order by subtraction. (The proof does not in fact use
the key-length or positivity hypotheses; they state the claim's domain.) -/
theorem decrypt_inverts_encrypt_block (key block : List Nat) (n : Nat) (e : Endian)
    (_hkey : key.length = 16) (hlen : block.length = 8)
    (hb : ∀ x ∈ block, x < 256) (_hn : 0 < n) :
    _decrypt key (_encrypt key block n e) n e = block :=
  dec_enc_block key block n e hlen hb

/-- Witness for `decrypt_inverts_encrypt_block` at a concrete key, block,
cycle count and endianness. -/
theorem decrypt_inverts_encrypt_block_witness :
    _decrypt [1, 2, 3, 4, 5, 6, 7, 8, 9, 10, 11, 12, 13, 14, 15, 16]
        (_encrypt [1, 2, 3, 4, 5, 6, 7, 8, 9, 10, 11, 12, 13, 14, 15, 16]
          [222, 173, 190, 239, 0, 1, 2, 3] 2 Endian.little) 2 Endian.little =
      [222, 173, 190, 239, 0, 1, 2, 3] :=
  decrypt_inverts_encrypt_block _ _ 2 Endian.little (by decide) (by decide)
    (by decide) (by decide)

end Xtea

namespace Xtea

theorem _encrypt_length (key b : List Nat) (n : Nat) (e : Endian) :
    (_encrypt key b n e).length = 8 := by
  unfold _encrypt pack2
  cases e <;> simp [word2bytes]

theorem _encrypt_ne_nil (key b : List Nat) (n : Nat) (e : Endian) :
    _encrypt key b n e ≠ [] := by
  intro h
  have := _encrypt_length key b n e
  rw [h] at this
  simp at this

theorem _encrypt_bytes_lt (key b : List Nat) (n : Nat) (e : Endian) :
    ∀ x ∈ _encrypt key b n e, x < 256 := by
  unfold _encrypt pack2
  cases e <;> simp [word2bytes] <;> omega

theorem chunks8_eq (l : List Nat) :
    chunks8 l = if l = [] then [] else l.take 8 :: chunks8 (l.drop 8) := by
  rw [chunks8]

theorem chunks8_nil : chunks8 [] = [] := by
  rw [chunks8_eq]
  rfl

theorem chunks8_cons (l : List Nat) (h : l ≠ []) :
    chunks8 l = l.take 8 :: chunks8 (l.drop 8) := by
  rw [chunks8_eq, if_neg h]

theorem flatten_chunks8_aux (n : Nat) :
    ∀ l : List Nat, l.length ≤ n → (chunks8 l).flatten = l := by
  induction n with
  | zero =>
    intro l h
    have hl : l = [] := List.eq_nil_of_length_eq_zero (Nat.le_zero.mp h)
    subst hl
    simp [chunks8_nil]
  | succ n ih =>
    intro l h
    by_cases hl : l = []
    · subst hl
      simp [chunks8_nil]
    · rw [chunks8_cons l hl]
      have hpos : 0 < l.length := List.length_pos.mpr hl
      simp only [List.flatten_cons]
      rw [ih (l.drop 8) (by simp [List.length_drop]; omega)]
      exact List.take_append_drop 8 l

theorem flatten_chunks8 (l : List Nat) : (chunks8 l).flatten = l :=
  flatten_chunks8_aux l.length l (Nat.le_refl _)

theorem chunks8_flatten (bs : List (List Nat)) (h : ∀ b ∈ bs, b.length = 8) :
    chunks8 bs.flatten = bs := by
  induction bs with
  | nil => simp [chunks8_nil]
  | cons b bs ih =>
    have hb : b.length = 8 := h b (by simp)
    have hne : (b :: bs).flatten ≠ [] := by
      have : 0 < ((b :: bs).flatten).length := by
        simp [List.flatten_cons, hb]
      exact List.length_pos.mp this
    rw [chunks8_cons _ hne]
    simp only [List.flatten_cons]
    have htake : (b ++ bs.flatten).take 8 = b := by
      rw [← hb]
      exact List.take_left b bs.flatten
    have hdrop : (b ++ bs.flatten).drop 8 = bs.flatten := by
      rw [← hb]
      exact List.drop_left b bs.flatten
    rw [htake, hdrop, ih (fun x hx => h x (by simp [hx]))]

theorem chunks8_append_aux (n : Nat) :
    ∀ m1 m2 : List Nat, m1.length ≤ n → m1.length % 8 = 0 →
      chunks8 (m1 ++ m2) = chunks8 m1 ++ chunks8 m2 := by
  induction n with
  | zero =>
    intro m1 m2 h _
    have hl : m1 = [] := List.eq_nil_of_length_eq_zero (Nat.le_zero.mp h)
    subst hl
    simp [chunks8_nil]
  | succ n ih =>
    intro m1 m2 h h8
    by_cases hl : m1 = []
    · subst hl
      simp [chunks8_nil]
    · have hpos : 0 < m1.length := List.length_pos.mpr hl
      have h8le : 8 ≤ m1.length := by omega
      by_cases hm2 : m2 = []
      · subst hm2
        simp [chunks8_nil]
      · have hne : m1 ++ m2 ≠ [] := by
          simp [hl]
        rw [chunks8_cons _ hne, chunks8_cons _ hl]
        rw [List.take_append_of_le_length h8le, List.drop_append_of_le_length h8le]
        rw [ih (m1.drop 8) m2 (by simp [List.length_drop]; omega)
          (by simp [List.length_drop]; omega)]
        simp

theorem chunks8_append (m1 m2 : List Nat) (h8 : m1.length % 8 = 0) :
    chunks8 (m1 ++ m2) = chunks8 m1 ++ chunks8 m2 :=
  chunks8_append_aux m1.length m1 m2 (Nat.le_refl _) h8

theorem chunks8_mem_length_aux (n : Nat) :
    ∀ l : List Nat, l.length ≤ n → l.length % 8 = 0 →
      ∀ b ∈ chunks8 l, b.length = 8 := by
  induction n with
  | zero =>
    intro l h _
    have hl : l = [] := List.eq_nil_of_length_eq_zero (Nat.le_zero.mp h)
    subst hl
    simp [chunks8_nil]
  | succ n ih =>
    intro l h h8 b hb
    by_cases hl : l = []
    · subst hl
      rw [chunks8_nil] at hb
      simp at hb
    · have hpos : 0 < l.length := List.length_pos.mpr hl
      have h8le : 8 ≤ l.length := by omega
      rw [chunks8_cons _ hl] at hb
      rcases List.mem_cons.mp hb with hb | hb
      · subst hb
        simp [List.length_take]
        omega
      · exact ih (l.drop 8) (by simp [List.length_drop]; omega)
          (by simp [List.length_drop]; omega) b hb

theorem chunks8_mem_length (l : List Nat) (h8 : l.length % 8 = 0) :
    ∀ b ∈ chunks8 l, b.length = 8 :=
  chunks8_mem_length_aux l.length l (Nat.le_refl _) h8

theorem chunks8_mem_bytes_aux (n : Nat) :
    ∀ l : List Nat, l.length ≤ n → (∀ x ∈ l, x < 256) →
      ∀ b ∈ chunks8 l, ∀ x ∈ b, x < 256 := by
  induction n with
  | zero =>
    intro l h _
    have hl : l = [] := List.eq_nil_of_length_eq_zero (Nat.le_zero.mp h)
    subst hl
    simp [chunks8_nil]
  | succ n ih =>
    intro l h hlt b hb
    by_cases hl : l = []
    · subst hl
      rw [chunks8_nil] at hb
      simp at hb
    · have hpos : 0 < l.length := List.length_pos.mpr hl
      rw [chunks8_cons _ hl] at hb
      rcases List.mem_cons.mp hb with hb | hb
      · subst hb
        exact fun x hx => hlt x (List.take_subset 8 l hx)
      · exact ih (l.drop 8) (by simp [List.length_drop]; omega)
          (fun x hx => hlt x (List.drop_subset 8 l hx)) b hb

theorem chunks8_mem_bytes (l : List Nat) (hlt : ∀ x ∈ l, x < 256) :
    ∀ b ∈ chunks8 l, ∀ x ∈ b, x < 256 :=
  chunks8_mem_bytes_aux l.length l (Nat.le_refl _) hlt

theorem blockSlices_eq_chunks8_aux (k : Nat) :
    ∀ s : List Nat, s.length = 8 * k →
      (List.range k).map (fun i => (s.drop (i * 8)).take 8) = chunks8 s := by
  induction k with
  | zero =>
    intro s h
    have hs : s = [] := List.eq_nil_of_length_eq_zero (by omega)
    subst hs
    simp [chunks8_nil]
  | succ k ih =>
    intro s h
    have hne : s ≠ [] := by
      intro he
      subst he
      simp at h
    rw [List.range_succ_eq_map, List.map_cons, List.map_map, chunks8_cons s hne]
    congr 1
    rw [← ih (s.drop 8) (by simp [List.length_drop]; omega)]
    apply List.map_congr_left
    intro i _
    simp only [Function.comp_apply]
    rw [List.drop_drop]
    congr 2
    omega

theorem blockSlices_eq_chunks8 (s : List Nat) (h8 : s.length % 8 = 0) :
    (List.range (s.length / 8)).map (fun i => (s.drop (i * 8)).take 8) = chunks8 s :=
  blockSlices_eq_chunks8_aux (s.length / 8) s (by omega)

theorem _block_eq_chunks8 (s : List Nat) (h8 : s.length % 8 = 0) :
    _block s = Except.ok (chunks8 s) := by
  unfold _block
  rw [if_neg (by omega)]
  rw [blockSlices_eq_chunks8 s h8]

theorem _block_error (s : List Nat) (h8 : s.length % 8 ≠ 0) :
    _block s = Except.error XTEAError.invalidInputLengthError := by
  unfold _block
  rw [if_pos h8]

theorem nat_xor_cancel_left (a b : Nat) : a ^^^ (a ^^^ b) = b := by
  rw [← Nat.xor_assoc, Nat.xor_self, Nat.zero_xor]

theorem nat_xor_cancel_right (a b : Nat) : (a ^^^ b) ^^^ b = a := by
  rw [Nat.xor_assoc, Nat.xor_self, Nat.xor_zero]

theorem nat_xor_mix (a b k : Nat) : (a ^^^ k) ^^^ (b ^^^ k) = a ^^^ b := by
  rw [Nat.xor_assoc, Nat.xor_comm b k, nat_xor_cancel_left]

theorem xor_strings_length (s t : List Nat) :
    (xor_strings s t).length = min s.length t.length := by
  simp [xor_strings]

theorem xor_strings_lt (s t : List Nat) (hs : ∀ x ∈ s, x < 256)
    (ht : ∀ x ∈ t, x < 256) : ∀ x ∈ xor_strings s t, x < 256 := by
  induction s generalizing t with
  | nil => simp [xor_strings]
  | cons a s ih =>
    cases t with
    | nil => simp [xor_strings]
    | cons b t =>
      intro x hx
      simp only [xor_strings, List.zipWith_cons_cons, List.mem_cons] at hx
      rcases hx with h | h
      · subst h
        have ha : a < 2 ^ 8 := by
          have := hs a (by simp)
          omega
        have hb : b < 2 ^ 8 := by
          have := ht b (by simp)
          omega
        have := Nat.xor_lt_two_pow ha hb
        simpa using this
      · exact ih t (fun y hy => hs y (by simp [hy]))
          (fun y hy => ht y (by simp [hy])) x h

theorem xor_strings_cancel_left (s t : List Nat) :
    xor_strings s (xor_strings s t) = t.take s.length := by
  induction s generalizing t with
  | nil => simp [xor_strings]
  | cons a s ih =>
    cases t with
    | nil => simp [xor_strings]
    | cons b t =>
      simp only [xor_strings, List.zipWith_cons_cons, List.length_cons,
        List.take_succ_cons] at *
      rw [nat_xor_cancel_left, ih]

theorem xor_strings_cancel_right (s t : List Nat) :
    xor_strings (xor_strings s t) t = s.take t.length := by
  induction s generalizing t with
  | nil => simp [xor_strings]
  | cons a s ih =>
    cases t with
    | nil => simp [xor_strings]
    | cons b t =>
      simp only [xor_strings, List.zipWith_cons_cons, List.length_cons,
        List.take_succ_cons] at *
      rw [nat_xor_cancel_right, ih]

theorem xor_strings_xor_xor (p1 p2 ks : List Nat) (h : p1.length = p2.length)
    (hks : p1.length ≤ ks.length) :
    xor_strings (xor_strings p1 ks) (xor_strings p2 ks) = xor_strings p1 p2 := by
  induction p1 generalizing p2 ks with
  | nil =>
    have hp2 : p2 = [] := List.eq_nil_of_length_eq_zero (by simp at h; omega)
    subst hp2
    simp [xor_strings]
  | cons a p1 ih =>
    cases p2 with
    | nil => simp at h
    | cons b p2 =>
      cases ks with
      | nil => simp at hks
      | cons k ks =>
        simp only [xor_strings, List.zipWith_cons_cons, List.length_cons] at *
        rw [nat_xor_mix, ih p2 ks (by omega) (by omega)]

end Xtea

namespace Xtea

theorem encStep_ecb (key : List Nat) (cyc : Nat) (e : Endian)
    (iv : Option (List Nat)) (b : List Nat) :
    encStep key cyc e MODE_ECB iv b = (_encrypt key b cyc e, iv) := by
  simp [encStep, MODE_ECB]

theorem encStep_cbc (key : List Nat) (cyc : Nat) (e : Endian)
    (iv : Option (List Nat)) (b : List Nat) :
    encStep key cyc e MODE_CBC iv b =
      (_encrypt key (xor_strings (iv.getD []) b) cyc e,
       some (_encrypt key (xor_strings (iv.getD []) b) cyc e)) := by
  simp [encStep, MODE_ECB, MODE_CBC]

theorem encStep_cfb (key : List Nat) (cyc : Nat) (e : Endian)
    (iv : Option (List Nat)) (b : List Nat) :
    encStep key cyc e MODE_CFB iv b =
      (xor_strings (_encrypt key (iv.getD []) cyc e) b,
       some (xor_strings (_encrypt key (iv.getD []) cyc e) b)) := by
  simp [encStep, MODE_ECB, MODE_CBC, MODE_CFB]

theorem decStep_ecb (key : List Nat) (cyc : Nat) (e : Endian)
    (iv : Option (List Nat)) (b : List Nat) :
    decStep key cyc e MODE_ECB iv b = (_decrypt key b cyc e, iv) := by
  simp [decStep, MODE_ECB]

theorem decStep_cbc (key : List Nat) (cyc : Nat) (e : Endian)
    (iv : Option (List Nat)) (b : List Nat) :
    decStep key cyc e MODE_CBC iv b =
      (xor_strings (iv.getD []) (_decrypt key b cyc e), some b) := by
  simp [decStep, MODE_ECB, MODE_CBC]

theorem decStep_cfb (key : List Nat) (cyc : Nat) (e : Endian)
    (iv : Option (List Nat)) (b : List Nat) :
    decStep key cyc e MODE_CFB iv b =
      (xor_strings (_encrypt key (iv.getD []) cyc e) b, some b) := by
  simp [decStep, MODE_ECB, MODE_CBC, MODE_CFB]

theorem encSteps_ecb (key : List Nat) (cyc : Nat) (e : Endian)
    (bs : List (List Nat)) (iv : Option (List Nat)) :
    encSteps key cyc e MODE_ECB bs iv =
      (bs.map (fun b => _encrypt key b cyc e), iv) := by
  induction bs generalizing iv with
  | nil => rfl
  | cons b bs ih => simp [encSteps, encStep_ecb, ih]

theorem decSteps_ecb (key : List Nat) (cyc : Nat) (e : Endian)
    (bs : List (List Nat)) (iv : Option (List Nat)) :
    decSteps key cyc e MODE_ECB bs iv =
      (bs.map (fun b => _decrypt key b cyc e), iv) := by
  induction bs generalizing iv with
  | nil => rfl
  | cons b bs ih => simp [decSteps, decStep_ecb, ih]

theorem decSteps_encSteps_ecb (key : List Nat) (cyc : Nat) (e : Endian)
    (bs : List (List Nat)) (iv : Option (List Nat))
    (hbs : ∀ b ∈ bs, b.length = 8 ∧ ∀ x ∈ b, x < 256) :
    decSteps key cyc e MODE_ECB (encSteps key cyc e MODE_ECB bs iv).1 iv =
      (bs, iv) := by
  rw [encSteps_ecb, decSteps_ecb, List.map_map]
  have hid : bs.map ((fun b => _decrypt key b cyc e) ∘ (fun b => _encrypt key b cyc e))
      = bs.map id := by
    apply List.map_congr_left
    intro b hb
    exact dec_enc_block key b cyc e (hbs b hb).1 (hbs b hb).2
  rw [hid, List.map_id]

theorem decSteps_encSteps_cbc (key : List Nat) (cyc : Nat) (e : Endian)
    (bs : List (List Nat)) (iv : List Nat)
    (hiv : iv.length = 8) (hivb : ∀ x ∈ iv, x < 256)
    (hbs : ∀ b ∈ bs, b.length = 8 ∧ ∀ x ∈ b, x < 256) :
    decSteps key cyc e MODE_CBC (encSteps key cyc e MODE_CBC bs (some iv)).1
        (some iv) =
      (bs, (encSteps key cyc e MODE_CBC bs (some iv)).2) := by
  induction bs generalizing iv with
  | nil => rfl
  | cons b bs ih =>
    obtain ⟨hb8, hbb⟩ := hbs b (by simp)
    have hx8 : (xor_strings iv b).length = 8 := by
      simp [xor_strings_length, hiv, hb8]
    have hxb : ∀ x ∈ xor_strings iv b, x < 256 := xor_strings_lt iv b hivb hbb
    have hde : _decrypt key (_encrypt key (xor_strings iv b) cyc e) cyc e =
        xor_strings iv b := dec_enc_block key _ cyc e hx8 hxb
    have hcancel : xor_strings iv (xor_strings iv b) = b := by
      rw [xor_strings_cancel_left, hiv, ← hb8, List.take_length]
    have hrec := ih (_encrypt key (xor_strings iv b) cyc e)
      (_encrypt_length key _ cyc e) (_encrypt_bytes_lt key _ cyc e)
      (fun x hx => hbs x (by simp [hx]))
    simp only [encSteps, encStep_cbc, decSteps, decStep_cbc, Option.getD_some]
    rw [hde, hcancel, hrec]

theorem decSteps_encSteps_cfb (key : List Nat) (cyc : Nat) (e : Endian)
    (bs : List (List Nat)) (iv : List Nat)
    (hbs : ∀ b ∈ bs, b.length = 8 ∧ ∀ x ∈ b, x < 256) :
    decSteps key cyc e MODE_CFB (encSteps key cyc e MODE_CFB bs (some iv)).1
        (some iv) =
      (bs, (encSteps key cyc e MODE_CFB bs (some iv)).2) := by
  induction bs generalizing iv with
  | nil => rfl
  | cons b bs ih =>
    obtain ⟨hb8, _⟩ := hbs b (by simp)
    have hcancel : xor_strings (_encrypt key iv cyc e)
        (xor_strings (_encrypt key iv cyc e) b) = b := by
      rw [xor_strings_cancel_left, _encrypt_length, ← hb8, List.take_length]
    have hrec := ih (xor_strings (_encrypt key iv cyc e) b)
      (fun x hx => hbs x (by simp [hx]))
    simp only [encSteps, encStep_cfb, decSteps, decStep_cfb, Option.getD_some]
    rw [hcancel, hrec]

theorem encSteps_blocks_len (key : List Nat) (cyc : Nat) (e : Endian) (mode : Nat)
    (hmode : mode = MODE_ECB ∨ mode = MODE_CBC ∨ mode = MODE_CFB)
    (bs : List (List Nat)) (iv : Option (List Nat))
    (hbs : ∀ b ∈ bs, b.length = 8) :
    ∀ cb ∈ (encSteps key cyc e mode bs iv).1, cb.length = 8 := by
  induction bs generalizing iv with
  | nil => simp [encSteps]
  | cons b bs ih =>
    intro cb hcb
    simp only [encSteps, List.mem_cons] at hcb
    rcases hcb with hcb | hcb
    · subst hcb
      rcases hmode with hm | hm | hm <;> subst hm
      · rw [encStep_ecb]
        exact _encrypt_length key b cyc e
      · rw [encStep_cbc]
        exact _encrypt_length key _ cyc e
      · rw [encStep_cfb]
        simp only [xor_strings_length, _encrypt_length]
        rw [hbs b (by simp)]
        rfl
    · exact ih _ (fun x hx => hbs x (by simp [hx])) cb hcb

theorem encSteps_append (key : List Nat) (cyc : Nat) (e : Endian) (mode : Nat)
    (bs1 bs2 : List (List Nat)) (iv : Option (List Nat)) :
    encSteps key cyc e mode (bs1 ++ bs2) iv =
      ((encSteps key cyc e mode bs1 iv).1 ++
        (encSteps key cyc e mode bs2 (encSteps key cyc e mode bs1 iv).2).1,
       (encSteps key cyc e mode bs2 (encSteps key cyc e mode bs1 iv).2).2) := by
  induction bs1 generalizing iv with
  | nil => simp [encSteps]
  | cons b bs ih => simp [encSteps, ih]

theorem decSteps_append (key : List Nat) (cyc : Nat) (e : Endian) (mode : Nat)
    (bs1 bs2 : List (List Nat)) (iv : Option (List Nat)) :
    decSteps key cyc e mode (bs1 ++ bs2) iv =
      ((decSteps key cyc e mode bs1 iv).1 ++
        (decSteps key cyc e mode bs2 (decSteps key cyc e mode bs1 iv).2).1,
       (decSteps key cyc e mode bs2 (decSteps key cyc e mode bs1 iv).2).2) := by
  induction bs1 generalizing iv with
  | nil => simp [decSteps]
  | cons b bs ih => simp [decSteps, ih]

end Xtea

namespace Xtea

theorem ofbStream_length (key : List Nat) (cyc : Nat) :
    ∀ (n : Nat) (iv buf : List Nat), (ofbStream key cyc n iv buf).1.length = n := by
  intro n
  induction n with
  | zero => intro iv buf; rfl
  | succ n ih =>
    intro iv buf
    cases buf with
    | nil =>
      rcases hE : _encrypt key iv cyc with _ | ⟨b, rest⟩
      · exact absurd hE (_encrypt_ne_nil key iv cyc Endian.big)
      · simp [ofbStream, hE, ih]
    | cons b rest => simp [ofbStream, ih]

theorem ofbStream_add (key : List Nat) (cyc : Nat) :
    ∀ (a b : Nat) (iv buf : List Nat),
      ofbStream key cyc (a + b) iv buf =
        ((ofbStream key cyc a iv buf).1 ++
           (ofbStream key cyc b (ofbStream key cyc a iv buf).2.1
             (ofbStream key cyc a iv buf).2.2).1,
         (ofbStream key cyc b (ofbStream key cyc a iv buf).2.1
             (ofbStream key cyc a iv buf).2.2).2) := by
  intro a
  induction a with
  | zero => intro b iv buf; simp [ofbStream]
  | succ a ih =>
    intro b iv buf
    have hsa : a + 1 + b = (a + b) + 1 := by omega
    rw [hsa]
    cases buf with
    | nil =>
      rcases hE : _encrypt key iv cyc with _ | ⟨x, rest⟩
      · exact absurd hE (_encrypt_ne_nil key iv cyc Endian.big)
      · simp [ofbStream, hE, ih]
    | cons x rest => simp [ofbStream, ih]

theorem ofbStream_partial (key : List Nat) (cyc : Nat) :
    ∀ (n : Nat) (iv buf : List Nat), n ≤ buf.length →
      ofbStream key cyc n iv buf = (buf.take n, iv, buf.drop n) := by
  intro n
  induction n with
  | zero => intro iv buf _; simp [ofbStream]
  | succ n ih =>
    intro iv buf h
    cases buf with
    | nil => simp at h
    | cons b rest =>
      have hr : n ≤ rest.length := by
        simp at h
        omega
      simp [ofbStream, ih iv rest hr]

theorem ofbStream_refill (key : List Nat) (cyc : Nat) (iv : List Nat) :
    ofbStream key cyc 8 iv [] =
      (_encrypt key iv cyc, _encrypt key iv cyc, []) := by
  rcases hE : _encrypt key iv cyc with _ | ⟨b, rest⟩
  · exact absurd hE (_encrypt_ne_nil key iv cyc Endian.big)
  · have hr : rest.length = 7 := by
      have hl := _encrypt_length key iv cyc Endian.big
      rw [hE] at hl
      simp at hl
      omega
    show ofbStream key cyc (7 + 1) iv [] = _
    simp only [ofbStream, hE, ofbStream_partial key cyc 7 (b :: rest) rest (by omega)]
    rw [← hr, List.take_length, List.drop_length]

theorem ivIter_shift (key : List Nat) (cyc : Nat) (iv : List Nat) (j : Nat) :
    ivIter key cyc iv (j + 1) = ivIter key cyc (_encrypt key iv cyc) j := by
  induction j with
  | zero => rfl
  | succ j ih =>
    show _encrypt key (ivIter key cyc iv (j + 1)) cyc = _
    rw [ih]
    rfl

theorem specOFB_shift (key : List Nat) (cyc : Nat) (iv : List Nat) (k : Nat) :
    specOFBKeystream key cyc iv (k + 1) =
      _encrypt key iv cyc ++ specOFBKeystream key cyc (_encrypt key iv cyc) k := by
  unfold specOFBKeystream
  rw [List.range_succ_eq_map, List.map_cons, List.map_map]
  simp only [List.flatten_cons]
  congr 1
  congr 1
  apply List.map_congr_left
  intro j _
  simp only [Function.comp_apply]
  exact ivIter_shift key cyc iv (j + 1)

theorem ofbStream_spec (key : List Nat) (cyc : Nat) :
    ∀ (k n : Nat) (iv : List Nat), n ≤ 8 * k →
      (ofbStream key cyc n iv []).1 = (specOFBKeystream key cyc iv k).take n := by
  intro k
  induction k with
  | zero =>
    intro n iv h
    have hn : n = 0 := by omega
    subst hn
    simp [ofbStream]
  | succ k ih =>
    intro n iv h
    by_cases h8 : n ≤ 8
    · rcases hE : _encrypt key iv cyc with _ | ⟨b, rest⟩
      · exact absurd hE (_encrypt_ne_nil key iv cyc Endian.big)
      · have hr : rest.length = 7 := by
          have hl := _encrypt_length key iv cyc Endian.big
          rw [hE] at hl
          simp at hl
          omega
        rw [specOFB_shift, hE]
        match n, h8 with
        | 0, _ => simp [ofbStream]
        | m + 1, h8 =>
          have hm : m ≤ 7 := by omega
          simp only [ofbStream, hE,
            ofbStream_partial key cyc m (b :: rest) rest (by omega)]
          simp only [List.cons_append, List.take_succ_cons]
          congr 1
          rw [List.take_append_eq_append_take]
          have hm0 : m - rest.length = 0 := by omega
          rw [hm0]
          simp
    · obtain ⟨n', rfl⟩ : ∃ n', n = 8 + n' := ⟨n - 8, by omega⟩
      rw [ofbStream_add key cyc 8 n' iv [], ofbStream_refill]
      have h1 : (_encrypt key iv cyc).length = 8 := _encrypt_length key iv cyc Endian.big
      have h2 : 8 + n' - 8 = n' := by omega
      simp only [ih n' (_encrypt key iv cyc) (by omega), specOFB_shift,
        List.take_append_eq_append_take, h1, h2]
      congr 1
      exact (List.take_of_length_le (by rw [h1]; omega)).symm

theorem ctrStream_length (key : List Nat) (cyc : Nat) (ctr : Nat → List Nat) :
    ∀ (n i : Nat) (iv : Option (List Nat)) (buf : List Nat),
      (ctrStream key cyc ctr n i iv buf).1.length = n := by
  intro n
  induction n with
  | zero => intro i iv buf; rfl
  | succ n ih =>
    intro i iv buf
    cases buf with
    | nil =>
      rcases hE : _encrypt key (ctr i) cyc with _ | ⟨b, rest⟩
      · exact absurd hE (_encrypt_ne_nil key (ctr i) cyc Endian.big)
      · simp [ctrStream, hE, ih]
    | cons b rest => simp [ctrStream, ih]

theorem ctrStream_add (key : List Nat) (cyc : Nat) (ctr : Nat → List Nat) :
    ∀ (a b i : Nat) (iv : Option (List Nat)) (buf : List Nat),
      ctrStream key cyc ctr (a + b) i iv buf =
        ((ctrStream key cyc ctr a i iv buf).1 ++
           (ctrStream key cyc ctr b (ctrStream key cyc ctr a i iv buf).2.1
             (ctrStream key cyc ctr a i iv buf).2.2.1
             (ctrStream key cyc ctr a i iv buf).2.2.2).1,
         (ctrStream key cyc ctr b (ctrStream key cyc ctr a i iv buf).2.1
             (ctrStream key cyc ctr a i iv buf).2.2.1
             (ctrStream key cyc ctr a i iv buf).2.2.2).2) := by
  intro a
  induction a with
  | zero => intro b i iv buf; simp [ctrStream]
  | succ a ih =>
    intro b i iv buf
    have hsa : a + 1 + b = (a + b) + 1 := by omega
    rw [hsa]
    cases buf with
    | nil =>
      rcases hE : _encrypt key (ctr i) cyc with _ | ⟨x, rest⟩
      · exact absurd hE (_encrypt_ne_nil key (ctr i) cyc Endian.big)
      · simp [ctrStream, hE, ih]
    | cons x rest => simp [ctrStream, ih]

theorem ctrStream_partial (key : List Nat) (cyc : Nat) (ctr : Nat → List Nat) :
    ∀ (n i : Nat) (iv : Option (List Nat)) (buf : List Nat), n ≤ buf.length →
      ctrStream key cyc ctr n i iv buf = (buf.take n, i, iv, buf.drop n) := by
  intro n
  induction n with
  | zero => intro i iv buf _; simp [ctrStream]
  | succ n ih =>
    intro i iv buf h
    cases buf with
    | nil => simp at h
    | cons b rest =>
      have hr : n ≤ rest.length := by
        simp at h
        omega
      simp [ctrStream, ih i iv rest hr]

theorem ctrStream_refill (key : List Nat) (cyc : Nat) (ctr : Nat → List Nat)
    (i : Nat) (iv : Option (List Nat)) :
    ctrStream key cyc ctr 8 i iv [] =
      (_encrypt key (ctr i) cyc, i + 1, some (_encrypt key (ctr i) cyc), []) := by
  rcases hE : _encrypt key (ctr i) cyc with _ | ⟨b, rest⟩
  · exact absurd hE (_encrypt_ne_nil key (ctr i) cyc Endian.big)
  · have hr : rest.length = 7 := by
      have hl := _encrypt_length key (ctr i) cyc Endian.big
      rw [hE] at hl
      simp at hl
      omega
    show ctrStream key cyc ctr (7 + 1) i iv [] = _
    simp only [ctrStream, hE,
      ctrStream_partial key cyc ctr 7 (i + 1) (some (b :: rest)) rest (by omega)]
    rw [← hr, List.take_length, List.drop_length]

theorem specCTR_shift (key : List Nat) (cyc : Nat) (ctr : Nat → List Nat)
    (i k : Nat) :
    specCTRKeystream key cyc ctr i (k + 1) =
      _encrypt key (ctr i) cyc ++ specCTRKeystream key cyc ctr (i + 1) k := by
  unfold specCTRKeystream
  rw [List.range_succ_eq_map, List.map_cons, List.map_map]
  simp only [List.flatten_cons]
  congr 1
  congr 1
  apply List.map_congr_left
  intro j _
  simp only [Function.comp_apply]
  have hj : i + (j + 1) = i + 1 + j := by omega
  rw [hj]

theorem ctrStream_spec (key : List Nat) (cyc : Nat) (ctr : Nat → List Nat) :
    ∀ (k n i : Nat) (iv : Option (List Nat)), n ≤ 8 * k →
      (ctrStream key cyc ctr n i iv []).1 =
        (specCTRKeystream key cyc ctr i k).take n := by
  intro k
  induction k with
  | zero =>
    intro n i iv h
    have hn : n = 0 := by omega
    subst hn
    simp [ctrStream]
  | succ k ih =>
    intro n i iv h
    by_cases h8 : n ≤ 8
    · rcases hE : _encrypt key (ctr i) cyc with _ | ⟨b, rest⟩
      · exact absurd hE (_encrypt_ne_nil key (ctr i) cyc Endian.big)
      · have hr : rest.length = 7 := by
          have hl := _encrypt_length key (ctr i) cyc Endian.big
          rw [hE] at hl
          simp at hl
          omega
        rw [specCTR_shift, hE]
        match n, h8 with
        | 0, _ => simp [ctrStream]
        | m + 1, h8 =>
          have hm : m ≤ 7 := by omega
          simp only [ctrStream, hE,
            ctrStream_partial key cyc ctr m (i + 1) (some (b :: rest)) rest
              (by omega)]
          simp only [List.cons_append, List.take_succ_cons]
          congr 1
          rw [List.take_append_eq_append_take]
          have hm0 : m - rest.length = 0 := by omega
          rw [hm0]
          simp
    · obtain ⟨n', rfl⟩ : ∃ n', n = 8 + n' := ⟨n - 8, by omega⟩
      rw [ctrStream_add key cyc ctr 8 n' i iv [], ctrStream_refill]
      have h1 : (_encrypt key (ctr i) cyc).length = 8 :=
        _encrypt_length key (ctr i) cyc Endian.big
      have h2 : 8 + n' - 8 = n' := by omega
      simp only [ih n' (i + 1) (some (_encrypt key (ctr i) cyc)) (by omega),
        specCTR_shift, List.take_append_eq_append_take, h1, h2]
      congr 1
      exact (List.take_of_length_le (by rw [h1]; omega)).symm

end Xtea

namespace Xtea

theorem flatten_len8 (bs : List (List Nat)) (h : ∀ b ∈ bs, b.length = 8) :
    bs.flatten.length = 8 * bs.length := by
  induction bs with
  | nil => rfl
  | cons b bs ih =>
    simp only [List.flatten_cons, List.length_append, List.length_cons]
    rw [h b (by simp), ih (fun x hx => h x (by simp [hx]))]
    ring

theorem chunks8_single (p : List Nat) (h : p.length = 8) : chunks8 p = [p] := by
  have hne : p ≠ [] := by
    intro he
    subst he
    simp at h
  rw [chunks8_cons p hne, List.take_of_length_le (by omega),
    List.drop_eq_nil_of_le (by omega), chunks8_nil]

theorem mode_not_stream (c : XTEACipher)
    (h : c.mode = MODE_ECB ∨ c.mode = MODE_CBC ∨ c.mode = MODE_CFB) :
    ¬(c.mode = MODE_OFB ∨ c.mode = MODE_CTR) := by
  simp only [ MODE_ECB, MODE_CBC, MODE_CFB, MODE_OFB, MODE_CTR] at h ⊢
  omega

theorem encrypt_stream (c : XTEACipher) (data : List Nat)
    (h : c.mode = MODE_OFB ∨ c.mode = MODE_CTR) :
    c.encrypt data = Except.ok (_stream c data) := by
  unfold XTEACipher.encrypt
  rw [if_pos h]

theorem decrypt_stream (c : XTEACipher) (data : List Nat)
    (h : c.mode = MODE_OFB ∨ c.mode = MODE_CTR) :
    c.decrypt data = Except.ok (_stream c data) := by
  unfold XTEACipher.decrypt
  rw [if_pos h]

theorem encrypt_block_mode (c : XTEACipher) (data : List Nat)
    (h : c.mode = MODE_ECB ∨ c.mode = MODE_CBC ∨ c.mode = MODE_CFB)
    (h8 : data.length % 8 = 0) :
    c.encrypt data = Except.ok
      ((encSteps c.key (c.rounds / 2) c.endian c.mode (chunks8 data) c.IV).1.flatten,
       { c with IV := (encSteps c.key (c.rounds / 2) c.endian c.mode
           (chunks8 data) c.IV).2 }) := by
  unfold XTEACipher.encrypt
  rw [if_neg (mode_not_stream c h), _block_eq_chunks8 data h8]
  simp only [if_pos h]

theorem decrypt_block_mode (c : XTEACipher) (data : List Nat)
    (h : c.mode = MODE_ECB ∨ c.mode = MODE_CBC ∨ c.mode = MODE_CFB)
    (h8 : data.length % 8 = 0) :
    c.decrypt data = Except.ok
      ((decSteps c.key (c.rounds / 2) c.endian c.mode (chunks8 data) c.IV).1.flatten,
       { c with IV := (decSteps c.key (c.rounds / 2) c.endian c.mode
           (chunks8 data) c.IV).2 }) := by
  unfold XTEACipher.decrypt
  rw [if_neg (mode_not_stream c h), _block_eq_chunks8 data h8]
  simp only [if_pos h]

theorem encrypt_misaligned (c : XTEACipher) (data : List Nat)
    (hns : ¬(c.mode = MODE_OFB ∨ c.mode = MODE_CTR))
    (h8 : data.length % 8 ≠ 0) :
    c.encrypt data = Except.error XTEAError.invalidInputLengthError := by
  unfold XTEACipher.encrypt
  rw [if_neg hns, _block_error data h8]

theorem decrypt_misaligned (c : XTEACipher) (data : List Nat)
    (hns : ¬(c.mode = MODE_OFB ∨ c.mode = MODE_CTR))
    (h8 : data.length % 8 ≠ 0) :
    c.decrypt data = Except.error XTEAError.invalidInputLengthError := by
  unfold XTEACipher.decrypt
  rw [if_neg hns, _block_error data h8]

theorem encrypt_ok_align (c : XTEACipher) (data out : List Nat) (c2 : XTEACipher)
    (hns : ¬(c.mode = MODE_OFB ∨ c.mode = MODE_CTR))
    (h : c.encrypt data = Except.ok (out, c2)) : data.length % 8 = 0 := by
  by_contra h8
  rw [encrypt_misaligned c data hns h8] at h
  exact Except.noConfusion h

theorem decrypt_ok_align (c : XTEACipher) (data out : List Nat) (c2 : XTEACipher)
    (hns : ¬(c.mode = MODE_OFB ∨ c.mode = MODE_CTR))
    (h : c.decrypt data = Except.ok (out, c2)) : data.length % 8 = 0 := by
  by_contra h8
  rw [decrypt_misaligned c data hns h8] at h
  exact Except.noConfusion h

theorem xteaNew_ok (key : List Nat) (mode? : Option Nat) (iv? : Option (List Nat))
    (ctr? : Option (Nat → List Nat)) (rounds : Nat) (e : Endian) (c : XTEACipher)
    (hc : xteaNew key mode? iv? ctr? rounds e = Except.ok c) :
    c = ⟨key, mode?.getD MODE_ECB, iv?, ctr?, rounds, e, [], 0⟩ ∧
      key.length = 16 ∧
      (c.mode = MODE_ECB ∨ c.mode = MODE_CBC ∨ c.mode = MODE_CFB ∨
        c.mode = MODE_OFB ∨ c.mode = MODE_CTR) ∧
      ((c.mode = MODE_CBC ∨ c.mode = MODE_CFB ∨ c.mode = MODE_OFB) →
        (iv?.getD []).length = 8) := by
  simp only [xteaNew] at hc
  split at hc
  · exact Except.noConfusion hc
  · split at hc
    · exact Except.noConfusion hc
    · split at hc
      · exact Except.noConfusion hc
      · split at hc
        · exact Except.noConfusion hc
        · rename_i hk hm hiv hctr
          injection hc with hc
          subst hc
          refine ⟨rfl, by omega, ?_, ?_⟩
          · simp only [ MODE_ECB, MODE_CBC, MODE_CFB, MODE_OFB, MODE_CTR] at hm ⊢
            omega
          · intro hmm
            simp only [ MODE_ECB, MODE_CBC, MODE_CFB, MODE_OFB, MODE_CTR] at hmm hiv ⊢
            omega

end Xtea

namespace Xtea

theorem ecb_roundtrip_core (c : XTEACipher) (m : List Nat)
    (hmode : c.mode = MODE_ECB) (h8 : m.length % 8 = 0) (hmb : ∀ x ∈ m, x < 256) :
    ∃ ct c2, c.encrypt m = Except.ok (ct, c2) ∧ c.decrypt ct = Except.ok (m, c2) := by
  have hb3 : c.mode = MODE_ECB ∨ c.mode = MODE_CBC ∨ c.mode = MODE_CFB :=
    Or.inl hmode
  have hbs : ∀ b ∈ chunks8 m, b.length = 8 := chunks8_mem_length m h8
  have henc := encrypt_block_mode c m hb3 h8
  rw [hmode, encSteps_ecb] at henc
  set ct := ((chunks8 m).map
    (fun b => _encrypt c.key b (c.rounds / 2) c.endian)).flatten with hctdef
  have hct8 : ∀ b ∈ (chunks8 m).map
      (fun b => _encrypt c.key b (c.rounds / 2) c.endian), b.length = 8 := by
    intro b hb
    simp only [List.mem_map] at hb
    obtain ⟨a, _, rfl⟩ := hb
    exact _encrypt_length c.key a _ c.endian
  have hctlen : ct.length % 8 = 0 := by
    rw [hctdef, flatten_len8 _ hct8]
    omega
  have hdec := decrypt_block_mode c ct hb3 hctlen
  rw [hmode] at hdec
  have hchu : chunks8 ct = (chunks8 m).map
      (fun b => _encrypt c.key b (c.rounds / 2) c.endian) := by
    rw [hctdef]
    exact chunks8_flatten _ hct8
  rw [hchu, decSteps_ecb] at hdec
  have hdd : ((chunks8 m).map (fun b => _encrypt c.key b (c.rounds / 2) c.endian)).map
      (fun b => _decrypt c.key b (c.rounds / 2) c.endian) = chunks8 m := by
    rw [List.map_map]
    have hcongr : (chunks8 m).map
        ((fun b => _decrypt c.key b (c.rounds / 2) c.endian) ∘
          (fun b => _encrypt c.key b (c.rounds / 2) c.endian)) =
        (chunks8 m).map id := by
      apply List.map_congr_left
      intro b hb
      exact dec_enc_block c.key b _ c.endian (hbs b hb) (chunks8_mem_bytes m hmb b hb)
    rw [hcongr, List.map_id]
  rw [hdd, flatten_chunks8] at hdec
  exact ⟨ct, _, henc, hdec⟩

theorem cbc_roundtrip_core (c : XTEACipher) (m iv : List Nat)
    (hmode : c.mode = MODE_CBC) (hiv : c.IV = some iv) (hiv8 : iv.length = 8)
    (hivb : ∀ x ∈ iv, x < 256) (h8 : m.length % 8 = 0)
    (hmb : ∀ x ∈ m, x < 256) :
    ∃ ct c2, c.encrypt m = Except.ok (ct, c2) ∧ c.decrypt ct = Except.ok (m, c2) := by
  have hb3 : c.mode = MODE_ECB ∨ c.mode = MODE_CBC ∨ c.mode = MODE_CFB :=
    Or.inr (Or.inl hmode)
  have hbs : ∀ b ∈ chunks8 m, b.length = 8 ∧ ∀ x ∈ b, x < 256 :=
    fun b hb => ⟨chunks8_mem_length m h8 b hb, chunks8_mem_bytes m hmb b hb⟩
  have henc := encrypt_block_mode c m hb3 h8
  rw [hmode, hiv] at henc
  set E1 := encSteps c.key (c.rounds / 2) c.endian MODE_CBC (chunks8 m) (some iv)
    with hE1
  have hctblocks : ∀ b ∈ E1.1, b.length = 8 := by
    rw [hE1]
    exact encSteps_blocks_len c.key (c.rounds / 2) c.endian MODE_CBC
      (Or.inr (Or.inl rfl)) (chunks8 m) (some iv) (fun b hb => (hbs b hb).1)
  have hctlen : E1.1.flatten.length % 8 = 0 := by
    rw [flatten_len8 _ hctblocks]
    omega
  have hdec := decrypt_block_mode c E1.1.flatten hb3 hctlen
  rw [hmode, hiv, chunks8_flatten E1.1 hctblocks] at hdec
  have hrt := decSteps_encSteps_cbc c.key (c.rounds / 2) c.endian (chunks8 m) iv
    hiv8 hivb hbs
  rw [← hE1] at hrt
  simp only [hrt] at hdec
  rw [flatten_chunks8] at hdec
  exact ⟨E1.1.flatten, _, henc, hdec⟩

theorem cfb_roundtrip_core (c : XTEACipher) (m iv : List Nat)
    (hmode : c.mode = MODE_CFB) (hiv : c.IV = some iv)
    (h8 : m.length % 8 = 0) (hmb : ∀ x ∈ m, x < 256) :
    ∃ ct c2, c.encrypt m = Except.ok (ct, c2) ∧ c.decrypt ct = Except.ok (m, c2) := by
  have hb3 : c.mode = MODE_ECB ∨ c.mode = MODE_CBC ∨ c.mode = MODE_CFB :=
    Or.inr (Or.inr hmode)
  have hbs : ∀ b ∈ chunks8 m, b.length = 8 ∧ ∀ x ∈ b, x < 256 :=
    fun b hb => ⟨chunks8_mem_length m h8 b hb, chunks8_mem_bytes m hmb b hb⟩
  have henc := encrypt_block_mode c m hb3 h8
  rw [hmode, hiv] at henc
  set E1 := encSteps c.key (c.rounds / 2) c.endian MODE_CFB (chunks8 m) (some iv)
    with hE1
  have hctblocks : ∀ b ∈ E1.1, b.length = 8 := by
    rw [hE1]
    exact encSteps_blocks_len c.key (c.rounds / 2) c.endian MODE_CFB
      (Or.inr (Or.inr rfl)) (chunks8 m) (some iv) (fun b hb => (hbs b hb).1)
  have hctlen : E1.1.flatten.length % 8 = 0 := by
    rw [flatten_len8 _ hctblocks]
    omega
  have hdec := decrypt_block_mode c E1.1.flatten hb3 hctlen
  rw [hmode, hiv, chunks8_flatten E1.1 hctblocks] at hdec
  have hrt := decSteps_encSteps_cfb c.key (c.rounds / 2) c.endian (chunks8 m) iv hbs
  rw [← hE1] at hrt
  simp only [hrt] at hdec
  rw [flatten_chunks8] at hdec
  exact ⟨E1.1.flatten, _, henc, hdec⟩

theorem ofb_roundtrip_core (c : XTEACipher) (m : List Nat)
    (hmode : c.mode = MODE_OFB) :
    ∃ ct c2, c.encrypt m = Except.ok (ct, c2) ∧ c.decrypt ct = Except.ok (m, c2) := by
  have hs : c.mode = MODE_OFB ∨ c.mode = MODE_CTR := Or.inl hmode
  set r := ofbStream c.key (c.rounds / 2) m.length (c.IV.getD []) c.ksBuf with hr
  have hrlen : r.1.length = m.length := by
    rw [hr]
    exact ofbStream_length c.key (c.rounds / 2) m.length _ _
  set ct := List.zipWith (fun x y => x ^^^ y) m r.1 with hct
  have hctlen : ct.length = m.length := by
    rw [hct, List.length_zipWith, hrlen]
    omega
  have hstm : _stream c m = (ct, { c with IV := some r.2.1, ksBuf := r.2.2 }) := by
    unfold _stream
    rw [if_pos hmode]
  have hstc : _stream c ct = (m, { c with IV := some r.2.1, ksBuf := r.2.2 }) := by
    unfold _stream
    rw [if_pos hmode, hctlen]
    show (List.zipWith (fun x y => x ^^^ y) ct r.1,
        { c with IV := some r.2.1, ksBuf := r.2.2 }) =
      (m, { c with IV := some r.2.1, ksBuf := r.2.2 })
    congr 1
    rw [hct]
    show xor_strings (xor_strings m r.1) r.1 = m
    rw [xor_strings_cancel_right, hrlen, List.take_length]
  refine ⟨ct, { c with IV := some r.2.1, ksBuf := r.2.2 }, ?_, ?_⟩
  · rw [encrypt_stream c m hs, hstm]
  · rw [decrypt_stream c ct hs, hstc]

theorem ctr_roundtrip_core (c : XTEACipher) (m : List Nat)
    (hmode : c.mode = MODE_CTR) :
    ∃ ct c2, c.encrypt m = Except.ok (ct, c2) ∧ c.decrypt ct = Except.ok (m, c2) := by
  have hs : c.mode = MODE_OFB ∨ c.mode = MODE_CTR := Or.inr hmode
  have hnofb : ¬c.mode = MODE_OFB := by
    rw [hmode]
    simp [ MODE_OFB, MODE_CTR]
  set r := ctrStream c.key (c.rounds / 2) (c.counter.getD (fun _ => []))
    m.length c.ctrIdx c.IV c.ksBuf with hr
  have hrlen : r.1.length = m.length := by
    rw [hr]
    exact ctrStream_length c.key (c.rounds / 2) _ m.length _ _ _
  set ct := List.zipWith (fun x y => x ^^^ y) m r.1 with hct
  have hctlen : ct.length = m.length := by
    rw [hct, List.length_zipWith, hrlen]
    omega
  have hstm : _stream c m =
      (ct, { c with ctrIdx := r.2.1, IV := r.2.2.1, ksBuf := r.2.2.2 }) := by
    unfold _stream
    rw [if_neg hnofb]
  have hstc : _stream c ct =
      (m, { c with ctrIdx := r.2.1, IV := r.2.2.1, ksBuf := r.2.2.2 }) := by
    unfold _stream
    rw [if_neg hnofb, hctlen]
    show (List.zipWith (fun x y => x ^^^ y) ct r.1,
        { c with ctrIdx := r.2.1, IV := r.2.2.1, ksBuf := r.2.2.2 }) =
      (m, { c with ctrIdx := r.2.1, IV := r.2.2.1, ksBuf := r.2.2.2 })
    congr 1
    rw [hct]
    show xor_strings (xor_strings m r.1) r.1 = m
    rw [xor_strings_cancel_right, hrlen, List.take_length]
  refine ⟨ct, { c with ctrIdx := r.2.1, IV := r.2.2.1, ksBuf := r.2.2.2 }, ?_, ?_⟩
  · rw [encrypt_stream c m hs, hstm]
  · rw [decrypt_stream c ct hs, hstc]

end Xtea

namespace Xtea

/-- C2: with big-endian packing and 32 cycles, single-block (ECB) encryption
maps `af20a390547571aa` under key `27f917b1c1da899360e2acaaa6eb923d` to
`d26428af0a202283`, `deadbeefdeadbeef` under key
`deadbeefdeadbeefdeadbeefdeadbeef` to `faf28cb50940c0e0`, and
`9647a9189ec565d5` under that same key to `deadbeefdeadbeef`. -/
theorem known_vectors :
    _encrypt [0x27, 0xf9, 0x17, 0xb1, 0xc1, 0xda, 0x89, 0x93,
        0x60, 0xe2, 0xac, 0xaa, 0xa6, 0xeb, 0x92, 0x3d]
      [0xaf, 0x20, 0xa3, 0x90, 0x54, 0x75, 0x71, 0xaa] 32 Endian.big =
      [0xd2, 0x64, 0x28, 0xaf, 0x0a, 0x20, 0x22, 0x83] ∧
    _encrypt [0xde, 0xad, 0xbe, 0xef, 0xde, 0xad, 0xbe, 0xef,
        0xde, 0xad, 0xbe, 0xef, 0xde, 0xad, 0xbe, 0xef]
      [0xde, 0xad, 0xbe, 0xef, 0xde, 0xad, 0xbe, 0xef] 32 Endian.big =
      [0xfa, 0xf2, 0x8c, 0xb5, 0x09, 0x40, 0xc0, 0xe0] ∧
    _encrypt [0xde, 0xad, 0xbe, 0xef, 0xde, 0xad, 0xbe, 0xef,
        0xde, 0xad, 0xbe, 0xef, 0xde, 0xad, 0xbe, 0xef]
      [0x96, 0x47, 0xa9, 0x18, 0x9e, 0xc5, 0x65, 0xd5] 32 Endian.big =
      [0xde, 0xad, 0xbe, 0xef, 0xde, 0xad, 0xbe, 0xef] := by
  refine ⟨?_, ?_, ?_⟩ <;> decide

/-- C5: for an OFB or CTR engine, encrypt and decrypt are the same
operation; they accept input of every length, the output has exactly
`len(data)` bytes, and the keystream refinements: on a fresh OFB engine
the output is the byte-wise xor of the input with the first `len(data)`
bytes of the spec's OFB keystream (`IV := RoundEncrypt(key, IV)`
repeatedly, emitting the 8 bytes of each new IV), and on a fresh CTR
engine with the first `len(data)` bytes of the spec's CTR keystream
(`RoundEncrypt(key, counter())` per refill, counter calls in strict
order from index 0); in both cases every call returns `ok` regardless of
input length, the first `len(data)` keystream bytes are consumed in
strict order, and the generator state advances accordingly. -/
theorem stream_mode_symmetry (c : XTEACipher)
    (hmode : c.mode = MODE_OFB ∨ c.mode = MODE_CTR) :
    (∀ data, c.encrypt data = c.decrypt data) ∧
    (∀ data out c2, c.encrypt data = Except.ok (out, c2) →
      out.length = data.length) ∧
    (∀ iv, c.mode = MODE_OFB → c.IV = some iv → c.ksBuf = [] → ∀ data,
      c.encrypt data = Except.ok
        (List.zipWith (fun x y => x ^^^ y) data
          ((specOFBKeystream c.key (c.rounds / 2) iv data.length).take
            data.length),
         { c with
            IV := some (ofbStream c.key (c.rounds / 2) data.length iv []).2.1,
            ksBuf := (ofbStream c.key (c.rounds / 2) data.length iv []).2.2 })) ∧
    (∀ ctr, c.mode = MODE_CTR → c.counter = some ctr → c.ctrIdx = 0 →
      c.ksBuf = [] → ∀ data,
      c.encrypt data = Except.ok
        (List.zipWith (fun x y => x ^^^ y) data
          ((specCTRKeystream c.key (c.rounds / 2) ctr 0 data.length).take
            data.length),
         { c with
            ctrIdx := (ctrStream c.key (c.rounds / 2) ctr data.length 0
              c.IV []).2.1,
            IV := (ctrStream c.key (c.rounds / 2) ctr data.length 0
              c.IV []).2.2.1,
            ksBuf := (ctrStream c.key (c.rounds / 2) ctr data.length 0
              c.IV []).2.2.2 })) := by
  refine ⟨?_, ?_, ?_, ?_⟩
  · intro data
    rw [encrypt_stream c data hmode, decrypt_stream c data hmode]
  · intro data out c2 h
    rw [encrypt_stream c data hmode] at h
    injection h with h
    have ho : out = (_stream c data).1 := by
      rw [h]
    rw [ho]
    unfold _stream
    split
    · simp only [List.length_zipWith, ofbStream_length]
      omega
    · simp only [List.length_zipWith, ctrStream_length]
      omega
  · intro iv hofb hIV hbuf data
    rw [encrypt_stream c data hmode]
    unfold _stream
    rw [if_pos hofb, hIV, hbuf]
    simp only [Option.getD_some]
    rw [ofbStream_spec c.key (c.rounds / 2) data.length data.length iv (by omega)]
  · intro ctr hctrm hcounter hidx hbuf data
    rw [encrypt_stream c data hmode]
    unfold _stream
    rw [if_neg (by rw [hctrm]; decide), hcounter, hidx, hbuf]
    simp only [Option.getD_some]
    rw [ctrStream_spec c.key (c.rounds / 2) ctr data.length data.length 0 c.IV
      (by omega)]

/-- C6: for a block-chained engine (ECB, CBC, CFB), an encrypt or decrypt
call on input whose length is not a multiple of 8 fails with the
InvalidInputLength error; in this pure model the error result carries no
output and no updated engine (the caller keeps the unchanged engine value,
mirroring that Python raises inside `_block` before the loop runs, so no
output is produced and `self.IV` is untouched). Stream-mode engines (OFB,
CTR) never produce this error: every call returns `ok`. -/
theorem block_length_validation (c : XTEACipher) (data : List Nat) :
    ((c.mode = MODE_ECB ∨ c.mode = MODE_CBC ∨ c.mode = MODE_CFB) →
      data.length % 8 ≠ 0 →
      c.encrypt data = Except.error XTEAError.invalidInputLengthError ∧
      c.decrypt data = Except.error XTEAError.invalidInputLengthError) ∧
    ((c.mode = MODE_OFB ∨ c.mode = MODE_CTR) →
      (∃ out c2, c.encrypt data = Except.ok (out, c2)) ∧
      (∃ out c2, c.decrypt data = Except.ok (out, c2))) := by
  constructor
  · intro hb3 h8
    exact ⟨encrypt_misaligned c data (mode_not_stream c hb3) h8,
      decrypt_misaligned c data (mode_not_stream c hb3) h8⟩
  · intro hs
    refine ⟨⟨(_stream c data).1, (_stream c data).2, ?_⟩,
      ⟨(_stream c data).1, (_stream c data).2, ?_⟩⟩
    · rw [encrypt_stream c data hs]
    · rw [decrypt_stream c data hs]

/-- Witness for `block_length_validation`: a concrete ECB engine rejects a
1-byte input on both paths with the InvalidInputLength error. -/
theorem block_length_validation_witness :
    sampleECB.encrypt [0] = Except.error XTEAError.invalidInputLengthError ∧
    sampleECB.decrypt [0] = Except.error XTEAError.invalidInputLengthError :=
  (block_length_validation sampleECB [0]).1 (Or.inl rfl) (by decide)

/-- Witness for `stream_mode_symmetry`: on a concrete OFB engine, encrypt
and decrypt agree on a 3-byte input, and on a concrete fresh CTR engine a
3-byte input is accepted and xored with the spec's CTR keystream. -/
theorem stream_mode_symmetry_witness :
    sampleOFB.encrypt [1, 2, 3] = sampleOFB.decrypt [1, 2, 3] ∧
    sampleCTR.encrypt [1, 2, 3] = Except.ok
      (List.zipWith (fun x y => x ^^^ y) [1, 2, 3]
        ((specCTRKeystream sampleCTR.key (sampleCTR.rounds / 2) sampleCounter
          0 3).take 3),
       { sampleCTR with
          ctrIdx := (ctrStream sampleCTR.key (sampleCTR.rounds / 2)
            sampleCounter 3 0 sampleCTR.IV []).2.1,
          IV := (ctrStream sampleCTR.key (sampleCTR.rounds / 2)
            sampleCounter 3 0 sampleCTR.IV []).2.2.1,
          ksBuf := (ctrStream sampleCTR.key (sampleCTR.rounds / 2)
            sampleCounter 3 0 sampleCTR.IV []).2.2.2 }) :=
  ⟨(stream_mode_symmetry sampleOFB (Or.inl rfl)).1 [1, 2, 3],
   (stream_mode_symmetry sampleCTR (Or.inr rfl)).2.2.2 sampleCounter rfl rfl
     rfl rfl [1, 2, 3]⟩

/-- C8: two OFB engines with the same key, IV, cycle count and endianness
are the same pure engine value `c`; encrypting two equal-length messages
yields ciphertexts with `c1 XOR c2 = p1 XOR p2` — the keystream depends
only on the engine configuration, not on the plaintext. -/
theorem ofb_keystream_reuse (c : XTEACipher) (hmode : c.mode = MODE_OFB)
    (p1 p2 o1 o2 : List Nat) (c1 c2 : XTEACipher)
    (hlen : p1.length = p2.length)
    (h1 : c.encrypt p1 = Except.ok (o1, c1))
    (h2 : c.encrypt p2 = Except.ok (o2, c2)) :
    List.zipWith (fun x y => x ^^^ y) o1 o2 =
      List.zipWith (fun x y => x ^^^ y) p1 p2 := by
  have hs : c.mode = MODE_OFB ∨ c.mode = MODE_CTR := Or.inl hmode
  rw [encrypt_stream c p1 hs] at h1
  rw [encrypt_stream c p2 hs] at h2
  injection h1 with h1
  injection h2 with h2
  have ho1 : o1 = (_stream c p1).1 := by
    rw [h1]
  have ho2 : o2 = (_stream c p2).1 := by
    rw [h2]
  subst ho1
  subst ho2
  unfold _stream
  rw [hlen]
  simp only [if_pos hmode]
  exact xor_strings_xor_xor p1 p2
    (ofbStream c.key (c.rounds / 2) p2.length (c.IV.getD []) c.ksBuf).1 hlen
    (by rw [ofbStream_length]; omega)

/-- Witness for `ofb_keystream_reuse` at a concrete OFB engine and two
concrete equal-length plaintexts. -/
theorem ofb_keystream_reuse_witness :
    List.zipWith (fun x y => x ^^^ y) (_stream sampleOFB [1, 2, 3]).1
        (_stream sampleOFB [7, 7, 7]).1 =
      List.zipWith (fun x y => x ^^^ y) [1, 2, 3] [7, 7, 7] :=
  ofb_keystream_reuse sampleOFB rfl [1, 2, 3] [7, 7, 7] _ _ _ _ (by decide)
    (by rw [encrypt_stream sampleOFB [1, 2, 3] (Or.inl rfl)])
    (by rw [encrypt_stream sampleOFB [7, 7, 7] (Or.inl rfl)])

end Xtea

namespace Xtea

/-- C9: an ECB engine is stateless: successful encrypt and decrypt calls
return the engine unchanged (in particular `IV` stays whatever it was at
construction), and `decrypt (encrypt m) = m` holds on the single instance
with the engine equal to `c` after both calls. -/
theorem ecb_stateless (c : XTEACipher) (hmode : c.mode = MODE_ECB) :
    (∀ data out c2, c.encrypt data = Except.ok (out, c2) → c2 = c) ∧
    (∀ data out c2, c.decrypt data = Except.ok (out, c2) → c2 = c) ∧
    (∀ m, m.length % 8 = 0 → (∀ x ∈ m, x < 256) →
      ∃ ct, c.encrypt m = Except.ok (ct, c) ∧ c.decrypt ct = Except.ok (m, c)) := by
  have hb3 : c.mode = MODE_ECB ∨ c.mode = MODE_CBC ∨ c.mode = MODE_CFB :=
    Or.inl hmode
  have hterm : encSteps c.key (c.rounds / 2) c.endian c.mode =
      encSteps c.key (c.rounds / 2) c.endian MODE_ECB := by
    rw [hmode]
  have hdterm : decSteps c.key (c.rounds / 2) c.endian c.mode =
      decSteps c.key (c.rounds / 2) c.endian MODE_ECB := by
    rw [hmode]
  have hencState : ∀ data out c2, c.encrypt data = Except.ok (out, c2) → c2 = c := by
    intro data out c2 h
    have ha := encrypt_ok_align c data out c2 (mode_not_stream c hb3) h
    rw [encrypt_block_mode c data hb3 ha, hterm, encSteps_ecb] at h
    injection h with h
    injection h with _ hc2
    rw [← hc2]
  have hdecState : ∀ data out c2, c.decrypt data = Except.ok (out, c2) → c2 = c := by
    intro data out c2 h
    have ha := decrypt_ok_align c data out c2 (mode_not_stream c hb3) h
    rw [decrypt_block_mode c data hb3 ha, hdterm, decSteps_ecb] at h
    injection h with h
    injection h with _ hc2
    rw [← hc2]
  refine ⟨hencState, hdecState, ?_⟩
  intro m h8 hmb
  obtain ⟨ct, c2, henc, hdec⟩ := ecb_roundtrip_core c m hmode h8 hmb
  have he := hencState m ct c2 henc
  subst he
  exact ⟨ct, henc, hdec⟩

/-- Witness for `ecb_stateless`: a concrete ECB engine round-trips an
8-byte message with the engine unchanged. -/
theorem ecb_stateless_witness :
    ∃ ct, sampleECB.encrypt sampleMsg = Except.ok (ct, sampleECB) ∧
      sampleECB.decrypt ct = Except.ok (sampleMsg, sampleECB) :=
  (ecb_stateless sampleECB rfl).2.2 sampleMsg (by decide) (by decide)

/-- C10: on an OFB engine the keystream position persists across calls:
`encrypt m1` then `encrypt m2` on the resulting engine produces exactly the
output and final state of `encrypt (m1 ++ m2)` on the original engine (the
"single fresh instance with the same configuration" is the same pure engine
value `c`), with no alignment requirement on `len(m1)`. -/
theorem _stream_mode (c : XTEACipher) (data : List Nat) :
    ((_stream c data).2).mode = c.mode := by
  unfold _stream
  split <;> rfl

theorem _stream_ofb_append (c : XTEACipher) (hmode : c.mode = MODE_OFB)
    (m1 m2 : List Nat) :
    _stream c (m1 ++ m2) =
      ((_stream c m1).1 ++ (_stream (_stream c m1).2 m2).1,
       (_stream (_stream c m1).2 m2).2) := by
  have hlen1 : m1.length =
      (ofbStream c.key (c.rounds / 2) m1.length (c.IV.getD []) c.ksBuf).1.length :=
    (ofbStream_length c.key (c.rounds / 2) m1.length _ _).symm
  unfold _stream
  simp only [if_pos hmode, List.length_append, ofbStream_add, Option.getD_some]
  rw [List.zipWith_append (fun x y => x ^^^ y) m1 m2 _ _ hlen1]

theorem ofb_position_persists (c : XTEACipher) (hmode : c.mode = MODE_OFB)
    (m1 m2 o1 o2 : List Nat) (c1 c2 : XTEACipher)
    (h1 : c.encrypt m1 = Except.ok (o1, c1))
    (h2 : c1.encrypt m2 = Except.ok (o2, c2)) :
    c.encrypt (m1 ++ m2) = Except.ok (o1 ++ o2, c2) := by
  have hs : c.mode = MODE_OFB ∨ c.mode = MODE_CTR := Or.inl hmode
  rw [encrypt_stream c m1 hs] at h1
  injection h1 with h1
  have hmode1 : c1.mode = MODE_OFB := by
    have hc1 : (_stream c m1).2 = c1 := by
      rw [h1]
    rw [← hc1, _stream_mode]
    exact hmode
  rw [encrypt_stream c1 m2 (Or.inl hmode1)] at h2
  injection h2 with h2
  rw [encrypt_stream c (m1 ++ m2) hs, _stream_ofb_append c hmode m1 m2]
  simp only [h1, h2]

/-- Witness for `ofb_position_persists`: a concrete OFB engine, a 3-byte
first message (not block-aligned) and a 6-byte second message. -/
theorem ofb_position_persists_witness :
    sampleOFB.encrypt ([1, 2, 3] ++ [4, 5, 6, 7, 8, 9]) =
      Except.ok ((_stream sampleOFB [1, 2, 3]).1 ++
          (_stream (_stream sampleOFB [1, 2, 3]).2 [4, 5, 6, 7, 8, 9]).1,
        (_stream (_stream sampleOFB [1, 2, 3]).2 [4, 5, 6, 7, 8, 9]).2) :=
  ofb_position_persists sampleOFB rfl [1, 2, 3] [4, 5, 6, 7, 8, 9] _ _ _ _
    (by rw [encrypt_stream sampleOFB [1, 2, 3] (Or.inl rfl)])
    (by rw [encrypt_stream (_stream sampleOFB [1, 2, 3]).2 [4, 5, 6, 7, 8, 9]
        (Or.inl ((_stream_mode sampleOFB [1, 2, 3]).trans rfl))])

end Xtea

namespace Xtea

theorem encrypt_append (c : XTEACipher)
    (hb3 : c.mode = MODE_ECB ∨ c.mode = MODE_CBC ∨ c.mode = MODE_CFB)
    (m1 m2 o1 o2 : List Nat) (c1 c2 : XTEACipher)
    (h1 : c.encrypt m1 = Except.ok (o1, c1))
    (h2 : c1.encrypt m2 = Except.ok (o2, c2)) :
    c.encrypt (m1 ++ m2) = Except.ok (o1 ++ o2, c2) := by
  have hns := mode_not_stream c hb3
  have ha1 := encrypt_ok_align c m1 o1 c1 hns h1
  rw [encrypt_block_mode c m1 hb3 ha1] at h1
  injection h1 with h1
  injection h1 with ho1 hc1
  have hb3' : c1.mode = MODE_ECB ∨ c1.mode = MODE_CBC ∨ c1.mode = MODE_CFB := by
    rw [← hc1]
    exact hb3
  have ha2 := encrypt_ok_align c1 m2 o2 c2 (mode_not_stream c1 hb3') h2
  rw [encrypt_block_mode c1 m2 hb3' ha2] at h2
  injection h2 with h2
  injection h2 with ho2 hc2
  have ha12 : (m1 ++ m2).length % 8 = 0 := by
    rw [List.length_append]
    omega
  subst ho1
  subst hc1
  subst ho2
  subst hc2
  rw [encrypt_block_mode c (m1 ++ m2) hb3 ha12, chunks8_append m1 m2 ha1,
    encSteps_append, List.flatten_append]

theorem decrypt_append (c : XTEACipher)
    (hb3 : c.mode = MODE_ECB ∨ c.mode = MODE_CBC ∨ c.mode = MODE_CFB)
    (m1 m2 o1 o2 : List Nat) (c1 c2 : XTEACipher)
    (h1 : c.decrypt m1 = Except.ok (o1, c1))
    (h2 : c1.decrypt m2 = Except.ok (o2, c2)) :
    c.decrypt (m1 ++ m2) = Except.ok (o1 ++ o2, c2) := by
  have hns := mode_not_stream c hb3
  have ha1 := decrypt_ok_align c m1 o1 c1 hns h1
  rw [decrypt_block_mode c m1 hb3 ha1] at h1
  injection h1 with h1
  injection h1 with ho1 hc1
  have hb3' : c1.mode = MODE_ECB ∨ c1.mode = MODE_CBC ∨ c1.mode = MODE_CFB := by
    rw [← hc1]
    exact hb3
  have ha2 := decrypt_ok_align c1 m2 o2 c2 (mode_not_stream c1 hb3') h2
  rw [decrypt_block_mode c1 m2 hb3' ha2] at h2
  injection h2 with h2
  injection h2 with ho2 hc2
  have ha12 : (m1 ++ m2).length % 8 = 0 := by
    rw [List.length_append]
    omega
  subst ho1
  subst hc1
  subst ho2
  subst hc2
  rw [decrypt_block_mode c (m1 ++ m2) hb3 ha12, chunks8_append m1 m2 ha1,
    decSteps_append, List.flatten_append]

/-- C4: for a CBC engine, each block is processed in order: on encrypt a
single 8-byte block `p` yields `c = RoundEncrypt(key, IV XOR p)` and the
engine's IV becomes `c`; on decrypt a single 8-byte block `ct` yields
`p = IV XOR RoundDecrypt(key, ct)` and the IV becomes the ciphertext block
just consumed (`ct`, not the derived plaintext). The chaining rule holds
for every block within a call and across successive calls: encrypting (or
decrypting) `m1` then `m2` on one engine equals one call on `m1 ++ m2`,
output and final state included. -/
theorem cbc_chaining (c : XTEACipher) (iv : List Nat)
    (hmode : c.mode = MODE_CBC) (hiv : c.IV = some iv) :
    (∀ p, p.length = 8 →
      c.encrypt p = Except.ok
        (_encrypt c.key (xor_strings iv p) (c.rounds / 2) c.endian,
         { c with IV := some (_encrypt c.key (xor_strings iv p) (c.rounds / 2)
            c.endian) })) ∧
    (∀ ct, ct.length = 8 →
      c.decrypt ct = Except.ok
        (xor_strings iv (_decrypt c.key ct (c.rounds / 2) c.endian),
         { c with IV := some ct })) ∧
    (∀ m1 m2 o1 o2 c1 c2, c.encrypt m1 = Except.ok (o1, c1) →
      c1.encrypt m2 = Except.ok (o2, c2) →
      c.encrypt (m1 ++ m2) = Except.ok (o1 ++ o2, c2)) ∧
    (∀ m1 m2 o1 o2 c1 c2, c.decrypt m1 = Except.ok (o1, c1) →
      c1.decrypt m2 = Except.ok (o2, c2) →
      c.decrypt (m1 ++ m2) = Except.ok (o1 ++ o2, c2)) := by
  have hb3 : c.mode = MODE_ECB ∨ c.mode = MODE_CBC ∨ c.mode = MODE_CFB :=
    Or.inr (Or.inl hmode)
  have hterm : encSteps c.key (c.rounds / 2) c.endian c.mode =
      encSteps c.key (c.rounds / 2) c.endian MODE_CBC := by
    rw [hmode]
  have hdterm : decSteps c.key (c.rounds / 2) c.endian c.mode =
      decSteps c.key (c.rounds / 2) c.endian MODE_CBC := by
    rw [hmode]
  refine ⟨?_, ?_, ?_, ?_⟩
  · intro p hp
    rw [encrypt_block_mode c p hb3 (by omega), hterm, hiv, chunks8_single p hp]
    simp only [encSteps, encStep_cbc, Option.getD_some, List.flatten_cons,
      List.flatten_nil, List.append_nil]
  · intro ct hct
    rw [decrypt_block_mode c ct hb3 (by omega), hdterm, hiv, chunks8_single ct hct]
    simp only [decSteps, decStep_cbc, Option.getD_some, List.flatten_cons,
      List.flatten_nil, List.append_nil]
  · exact fun m1 m2 o1 o2 c1 c2 h1 h2 =>
      encrypt_append c hb3 m1 m2 o1 o2 c1 c2 h1 h2
  · exact fun m1 m2 o1 o2 c1 c2 h1 h2 =>
      decrypt_append c hb3 m1 m2 o1 o2 c1 c2 h1 h2

/-- Witness for `cbc_chaining`: single-block CBC encryption on a concrete
engine and message. -/
theorem cbc_chaining_witness :
    sampleCBC.encrypt sampleMsg = Except.ok
      (_encrypt sampleCBC.key (xor_strings sampleIV sampleMsg)
        (sampleCBC.rounds / 2) sampleCBC.endian,
       { sampleCBC with IV := some (_encrypt sampleCBC.key
          (xor_strings sampleIV sampleMsg) (sampleCBC.rounds / 2)
          sampleCBC.endian) }) :=
  (cbc_chaining sampleCBC sampleIV rfl rfl).1 sampleMsg (by decide)

/-- C1: for every valid configuration — an engine successfully produced by
the constructor from a 16-byte key, recognized mode, the IV/counter the
mode requires and a positive cycle count at a fixed endianness — and every
message of bytes (block-aligned for ECB/CBC/CFB, any length for OFB/CTR),
decrypting the result of encrypting `m` on an identically configured
engine (the same pure engine value `c`) returns `m`; the two runs also end
in the same engine state. (The key-length and cycle-count hypotheses state
the claim's domain; the proof holds for them throughout.) -/
theorem roundtrip (key : List Nat) (mode? : Option Nat) (iv? : Option (List Nat))
    (ctr? : Option (Nat → List Nat)) (rounds : Nat) (e : Endian) (c : XTEACipher)
    (m : List Nat) (hc : xteaNew key mode? iv? ctr? rounds e = Except.ok c)
    (hivb : ∀ iv, iv? = some iv → ∀ x ∈ iv, x < 256)
    (hmb : ∀ x ∈ m, x < 256) (_hcyc : 0 < rounds / 2)
    (halign : c.mode = MODE_ECB ∨ c.mode = MODE_CBC ∨ c.mode = MODE_CFB →
      m.length % 8 = 0) :
    ∃ ct c2, c.encrypt m = Except.ok (ct, c2) ∧
      c.decrypt ct = Except.ok (m, c2) := by
  obtain ⟨hcE, hk16, hmodes, hivlen⟩ := xteaNew_ok key mode? iv? ctr? rounds e c hc
  have hIV : c.IV = iv? := by
    rw [hcE]
  rcases hmodes with hm | hm | hm | hm | hm
  · exact ecb_roundtrip_core c m hm (halign (Or.inl hm)) hmb
  · have hl := hivlen (Or.inl hm)
    cases hiveq : iv? with
    | none =>
      rw [hiveq] at hl
      simp at hl
    | some iv =>
      rw [hiveq] at hl
      simp only [Option.getD_some] at hl
      exact cbc_roundtrip_core c m iv hm (by rw [hIV, hiveq]) hl
        (hivb iv hiveq) (halign (Or.inr (Or.inl hm))) hmb
  · have hl := hivlen (Or.inr (Or.inl hm))
    cases hiveq : iv? with
    | none =>
      rw [hiveq] at hl
      simp at hl
    | some iv =>
      exact cfb_roundtrip_core c m iv hm (by rw [hIV, hiveq])
        (halign (Or.inr (Or.inr hm))) hmb
  · exact ofb_roundtrip_core c m hm
  · exact ctr_roundtrip_core c m hm

/-- Witness for `roundtrip`: a concrete CBC configuration round-trips a
16-byte message. -/
theorem roundtrip_witness :
    ∃ ct c2, sampleCBC.encrypt (sampleMsg ++ sampleMsg) = Except.ok (ct, c2) ∧
      sampleCBC.decrypt ct = Except.ok (sampleMsg ++ sampleMsg, c2) :=
  roundtrip sampleKey (some MODE_CBC) (some sampleIV) none 64 Endian.big
    sampleCBC (sampleMsg ++ sampleMsg) rfl
    (fun iv hiv => by
      injection hiv with h
      subst h
      decide)
    (by decide) (by decide) (fun _ => by decide)

end Xtea

namespace Xtea

/-- C7 counterexample: a construction call with the mode argument absent
does NOT raise; it succeeds, with the engine defaulting to `MODE_ECB` (the
source issues `warnings.warn("Using implicit ECB!")` instead of raising),
refuting the claim that an absent mode raises the unsupported-mode error. -/
theorem construction_mode_absent_counterexample :
    ctorMode (xteaNew (List.replicate 16 0) none none none 64 Endian.big) =
      some MODE_ECB := rfl

/-- C7 (amended): construction fails fast — a key whose length differs
from 16 raises the key-length error; a mode argument that is present but
not a recognized enum value raises the unsupported-mode error
(NotImplementedError in the source; PGP takes exactly this path); an
ABSENT mode does not raise but defaults to `MODE_ECB` with a runtime
warning; CBC, CFB or OFB with an absent IV or an IV whose length differs
from 8 (`(iv?.getD []).length ≠ 8` covers both) raises the IV-required
error; CTR with an absent (in Python: non-callable) counter raises the
counter-required error. -/
theorem construction_validation (key : List Nat) (mode? : Option Nat)
    (iv? : Option (List Nat)) (ctr? : Option (Nat → List Nat)) (rounds : Nat)
    (e : Endian) :
    (key.length ≠ 16 →
      xteaNew key mode? iv? ctr? rounds e =
        Except.error XTEAError.keyLengthError) ∧
    (mode? = none →
      xteaNew key mode? iv? ctr? rounds e =
        xteaNew key (some MODE_ECB) iv? ctr? rounds e) ∧
    (∀ mo, key.length = 16 → mode? = some mo → mo ≠ MODE_ECB → mo ≠ MODE_CBC →
      mo ≠ MODE_CFB → mo ≠ MODE_OFB → mo ≠ MODE_CTR →
      xteaNew key mode? iv? ctr? rounds e =
        Except.error XTEAError.unsupportedModeError) ∧
    (key.length = 16 → mode? = some MODE_PGP →
      xteaNew key mode? iv? ctr? rounds e =
        Except.error XTEAError.unsupportedModeError) ∧
    (key.length = 16 →
      (mode? = some MODE_CBC ∨ mode? = some MODE_CFB ∨ mode? = some MODE_OFB) →
      (iv?.getD []).length ≠ 8 →
      xteaNew key mode? iv? ctr? rounds e =
        Except.error XTEAError.ivRequiredError) ∧
    (key.length = 16 → mode? = some MODE_CTR → ctr? = none →
      xteaNew key mode? iv? ctr? rounds e =
        Except.error XTEAError.counterRequiredError) := by
  refine ⟨?_, ?_, ?_, ?_, ?_, ?_⟩
  · intro hk
    unfold xteaNew
    rw [if_pos hk]
  · intro hmq
    subst hmq
    rfl
  · intro mo hk hmq h1 h2 h3 h5 h6
    subst hmq
    unfold xteaNew
    rw [if_neg (by omega)]
    simp only [Option.getD_some]
    rw [if_pos ⟨h1, h2, h3, h5, h6⟩]
  · intro hk hmq
    subst hmq
    unfold xteaNew
    rw [if_neg (by omega)]
    simp only [Option.getD_some]
    rw [if_pos (by decide)]
  · intro hk hmq h8
    rcases hmq with hmq | hmq | hmq
    all_goals subst hmq
    all_goals unfold xteaNew
    all_goals rw [if_neg (by omega)]
    all_goals simp only [Option.getD_some]
    all_goals rw [if_neg (by decide)]
    all_goals rw [if_pos ⟨by decide, h8⟩]
  · intro hk hmq hctr
    subst hmq
    subst hctr
    unfold xteaNew
    rw [if_neg (by omega)]
    simp only [Option.getD_some]
    rw [if_neg (by decide)]
    rw [if_neg (fun h => absurd h.1 (by decide))]
    rw [if_pos ⟨by decide, rfl⟩]

/-- Witness for `construction_validation`: concrete calls exercising the
key-length, unsupported-mode (PGP), IV-required and counter-required
clauses. -/
theorem construction_validation_witness :
    xteaNew [] none none none 64 Endian.big =
      Except.error XTEAError.keyLengthError ∧
    xteaNew sampleKey (some MODE_PGP) none none 64 Endian.big =
      Except.error XTEAError.unsupportedModeError ∧
    xteaNew sampleKey (some MODE_CBC) none none 64 Endian.big =
      Except.error XTEAError.ivRequiredError ∧
    xteaNew sampleKey (some MODE_CTR) none none 64 Endian.big =
      Except.error XTEAError.counterRequiredError :=
  ⟨(construction_validation [] none none none 64 Endian.big).1 (by decide),
   (construction_validation sampleKey (some MODE_PGP) none none 64
      Endian.big).2.2.2.1 (by decide) rfl,
   (construction_validation sampleKey (some MODE_CBC) none none 64
      Endian.big).2.2.2.2.1 (by decide) (Or.inl rfl) (by decide),
   (construction_validation sampleKey (some MODE_CTR) none none 64
      Endian.big).2.2.2.2.2 (by decide) rfl rfl⟩

end Xtea
